import Mathlib

/-!
# Verification of `specializeAutogradZero`
  (torch/csrc/jit/passes/specialize_autogradzero.cpp)

Shallow embedding of the graph-rewriting pass that propagates autograd-zero
information through a gradient graph: seeds a tri-state classification
(Nonzero / Zero / Unknown) for graph inputs from their types, then scans the
top-level nodes once in order, collapsing `prim::GradOf` regions, simplifying
`prim::AutogradAdd` nodes, and tagging `prim::AutogradZero` literals.

Modelling conventions:
 * `Value*` identities are natural numbers; `Node` identities likewise.
 * The `std::unordered_map<Value*, State>` is an association list; C++
   `operator[]` value-initializes an absent entry to the first enumerator,
   which is `State::Nonzero`, so the read `state[v]` is modelled by
   `mapGetD`, whose default for an absent key is `State.Nonzero`.
 * `Graph` holds the typed input values, the ordered top-level node list and
   the graph output values (the inputs of the Return node, which are uses and
   are therefore subject to `replaceAllUsesWith`).
 * A node's single nested block (only `prim::GradOf` owns one) is embedded
   directly in the node as a node list plus its designated output values.
 * Fresh `Value*`/`Node*` allocations are modelled by a counter that starts
   strictly above every identifier occurring in the graph.
-/

namespace AGZ

/-- `enum class State { Nonzero, Zero, Unknown }` — the order matters:
`Nonzero` is the first enumerator, hence the value-initialized default. -/
inductive State where
  | Nonzero : State
  | Zero : State
  | Unknown : State
deriving DecidableEq, Repr

/-- Node kinds: the three `prim::` symbols the switch dispatches on, the
`aten::add` kind produced by the symbolic-variable helper, and everything
else (the switch's `default:` case). -/
inductive Kind where
  | gradOf : Kind
  | autogradAdd : Kind
  | autogradZero : Kind
  | atenAdd : Kind
  | other : Nat → Kind
deriving DecidableEq, Repr

/-- A node: identity, kind, input values (uses), output values (definitions),
nested-block node list and nested-block designated outputs (the block's
return values, which are uses). Only `gradOf` nodes carry a non-trivial
nested block. -/
inductive Node where
  | mk : Nat → Kind → List Nat → List Nat → List Node → List Nat → Node

mutual

def Node.beq : Node → Node → Bool
  | .mk i k is os b bo, .mk i' k' is' os' b' bo' =>
    i == i' && k == k' && is == is' && os == os' && Node.beqList b b' && bo == bo'

def Node.beqList : List Node → List Node → Bool
  | [], [] => true
  | n :: ns, m :: ms => Node.beq n m && Node.beqList ns ms
  | _, _ => false

end

mutual

theorem Node.beq_iff : ∀ a b : Node, (Node.beq a b = true) ↔ a = b
  | .mk i k is os bd bo, .mk i' k' is' os' bd' bo' => by
    simp only [Node.beq, Bool.and_eq_true, beq_iff_eq, Node.mk.injEq]
    rw [Node.beqList_iff bd bd']
    tauto

theorem Node.beqList_iff : ∀ a b : List Node, (Node.beqList a b = true) ↔ a = b
  | [], [] => by simp [Node.beqList]
  | [], _ :: _ => by simp [Node.beqList]
  | _ :: _, [] => by simp [Node.beqList]
  | n :: ns, m :: ms => by
    simp only [Node.beqList, Bool.and_eq_true, List.cons.injEq]
    rw [Node.beq_iff n m, Node.beqList_iff ns ms]

end

instance Node.decEq : DecidableEq Node := fun a b =>
  decidable_of_iff (Node.beq a b = true) (Node.beq_iff a b)

def Node.nid : Node → Nat
  | .mk i _ _ _ _ _ => i

def Node.kind : Node → Kind
  | .mk _ k _ _ _ _ => k

def Node.ins : Node → List Nat
  | .mk _ _ is _ _ _ => is

def Node.outs : Node → List Nat
  | .mk _ _ _ os _ _ => os

def Node.body : Node → List Node
  | .mk _ _ _ _ b _ => b

def Node.bouts : Node → List Nat
  | .mk _ _ _ _ _ bo => bo

/-- The slice of the type interface the pass consumes:
`tp->cast<TensorType>()` (with the tensor type's optional `autogradZero()`
flag), `tp->isSubtypeOf(TensorType::get())` and
`tp->isSubtypeOf(ListType::ofTensors())`. -/
structure Ty where
  castTensorType : Option (Option Bool)
  subOfTensor : Bool
  subOfTensorList : Bool
deriving DecidableEq, Repr

structure Graph where
  inputs : List (Nat × Ty)
  nodes : List Node
  outputs : List Nat
deriving DecidableEq

/-! ## The classification map -/

abbrev SMap := List (Nat × State)

/-- `state[v] = s` (assignment): the most recent binding shadows. -/
def mapSet (m : SMap) (v : Nat) (s : State) : SMap := (v, s) :: m

def mapFind (m : SMap) (v : Nat) : Option State :=
  (m.find? (fun p => p.1 == v)).map (fun p => p.2)

/-- Reading `state[v]`: `std::unordered_map::operator[]` value-initializes an
absent entry to `State::Nonzero` (the first enumerator). The insertion the
C++ read performs is observationally invisible, since every later read of the
still-unassigned key returns that same default. -/
def mapGetD (m : SMap) (v : Nat) : State := (mapFind m v).getD State.Nonzero

/-! ## Uses, identities, bounds -/

def substV (o r v : Nat) : Nat := if v = o then r else v

mutual
/-- `Value::replaceAllUsesWith` restricted to one node: rewrites every use
(inputs, nested-block nodes, nested-block outputs); definitions (`outs`) are
untouched. -/
def replaceUsesNode (o r : Nat) : Node → Node
  | .mk i k is os b bo =>
    .mk i k (is.map (substV o r)) os (replaceUsesList o r b) (bo.map (substV o r))

def replaceUsesList (o r : Nat) : List Node → List Node
  | [] => []
  | n :: ns => replaceUsesNode o r n :: replaceUsesList o r ns
end

mutual
/-- All use occurrences in a node, in order: inputs, body uses, body outputs. -/
def useNode : Node → List Nat
  | .mk _ _ is _ b bo => is ++ useListN b ++ bo

def useListN : List Node → List Nat
  | [] => []
  | n :: ns => useNode n ++ useListN ns
end

mutual
/-- Does node identity `k` occur (at top level or nested)? -/
def mentionsNode (k : Nat) : Node → Bool
  | .mk i _ _ _ b _ => i == k || mentionsList k b

def mentionsList (k : Nat) : List Node → Bool
  | [] => false
  | n :: ns => mentionsNode k n || mentionsList k ns
end

def listMax : List Nat → Nat
  | [] => 0
  | x :: xs => max x (listMax xs)

mutual
/-- Largest identifier (node id or value id) occurring in a node. -/
def nodeMaxId : Node → Nat
  | .mk i _ is os b bo =>
    max i (max (listMax is) (max (listMax os) (max (nodesMaxId b) (listMax bo))))

def nodesMaxId : List Node → Nat
  | [] => 0
  | n :: ns => max (nodeMaxId n) (nodesMaxId ns)
end

def topIds (l : List Node) : List Nat := l.map Node.nid

def topKinds (l : List Node) : List Kind := l.map Node.kind

/-! ## Seeding -/

/-- Seeding of one graph input from its type, exactly the `for (Value* input
: g.inputs())` body: a `TensorType` is `Zero` when its `autogradZero()` flag
is present and true, otherwise `Nonzero`; a non-tensor type that is a subtype
of `Tensor` or of `List[Tensor]` is `Nonzero`; anything else is `Unknown`. -/
def seedState (tp : Ty) : State :=
  match tp.castTensorType with
  | some az => if az.getD false then State.Zero else State.Nonzero
  | none =>
    if tp.subOfTensor || tp.subOfTensorList then State.Nonzero
    else State.Unknown

def initSMap (ivs : List (Nat × Ty)) : SMap :=
  ivs.foldl (fun m p => mapSet m p.1 (seedState p.2)) []

def freshStart (g : Graph) : Nat :=
  max (nodesMaxId g.nodes)
    (max (listMax (g.inputs.map Prod.fst)) (listMax g.outputs)) + 1

/-! ## The scan -/

/-- Scan state: nodes already passed by the cursor (in order), nodes still to
visit, the graph outputs, the classification map and the fresh-id counter. -/
structure PassSt where
  done : List Node
  todo : List Node
  gouts : List Nat
  smap : SMap
  fresh : Nat
deriving DecidableEq

/-- `replaceAllUsesWith` over the whole scan state. -/
def replaceAll (o r : Nat) (st : PassSt) : PassSt :=
  { st with
    done := replaceUsesList o r st.done
    todo := replaceUsesList o r st.todo
    gouts := st.gouts.map (substV o r) }

inductive StepRes where
  | next : PassSt → StepRes
  | halt : PassSt → StepRes
  | fatal : StepRes
deriving DecidableEq

/-- Modelled from the spec: the external arithmetic-synthesis helper
(`toVar(a) + toVar(b)` from `torch/csrc/jit/symbolic_variable.h`, a
collaborator that is not part of the sources under scrutiny) synthesizes one
new plain, unguarded addition node computing `a + b` at the insertion point
and returns its single (fresh) output value. -/
def synthesizePlainAdd (nid a b aval : Nat) : Node :=
  Node.mk nid Kind.atenAdd [a, b] [aval] [] []

/-- One iteration of the `for (auto it = g.nodes().begin(); ...)` loop,
dispatching on the kind of the node under the cursor.

 * `gradOf`, all inputs `Zero`: `createAutogradZero()->insertAfter(n)` (so
   the new node is the next the cursor visits), redirect every region output
   to the zero literal's output, `it.destroyCurrent()`.
 * `gradOf`, otherwise: `AT_ASSERT(state[input] != State::Unknown)` for each
   input (→ `fatal` on violation, before any mutation); move every body node
   before `n` in order; redirect the i-th region output to the i-th body
   output (`body->outputs().at(i)` presumes the block has at least as many
   designated outputs as the region, per the graph conformance contract);
   destroy `n` and its block.
 * `autogradAdd` (binary by construction, `n->input(0)`/`n->input(1)`):
   zero operand → redirect the output to the other operand and destroy;
   both `Nonzero` → insert one plain `aten::add` before `n` (the external
   symbolic-variable helper; modelled from the spec: it produces one new
   plain addition node computing a + b), classify its output `Nonzero`,
   redirect, destroy; otherwise leave the node and classify its output
   `Unknown`.
 * `autogradZero`: classify the output `Zero`, leave the node.
 * default: classify every output `Unknown`, leave the node. -/
def scanStep (st : PassSt) : StepRes :=
  match st.todo with
  | [] => .halt st
  | n :: rest =>
    match n.kind with
    | Kind.gradOf =>
      if n.ins.all (fun v => mapGetD st.smap v == State.Zero) then
        let zval := st.fresh + 1
        let zNode : Node := .mk st.fresh Kind.autogradZero [] [zval] [] []
        let st1 : PassSt := { st with todo := zNode :: rest, fresh := st.fresh + 2 }
        .next (n.outs.foldl (fun s o => replaceAll o zval s) st1)
      else if n.ins.all (fun v => mapGetD st.smap v != State.Unknown) then
        let st1 : PassSt := { st with done := st.done ++ n.body, todo := rest }
        .next ((n.outs.zip n.bouts).foldl (fun s p => replaceAll p.1 p.2 s) st1)
      else
        .fatal
    | Kind.autogradAdd =>
      let a := n.ins.getD 0 0
      let b := n.ins.getD 1 0
      if mapGetD st.smap a == State.Zero then
        .next (replaceAll (n.outs.getD 0 0) b { st with todo := rest })
      else if mapGetD st.smap b == State.Zero then
        .next (replaceAll (n.outs.getD 0 0) a { st with todo := rest })
      else if mapGetD st.smap a == State.Nonzero
          && mapGetD st.smap b == State.Nonzero then
        let aval := st.fresh + 1
        let addNode : Node := synthesizePlainAdd st.fresh a b aval
        let st1 : PassSt :=
          { st with done := st.done ++ [addNode], todo := rest,
                    smap := mapSet st.smap aval State.Nonzero,
                    fresh := st.fresh + 2 }
        .next (replaceAll (n.outs.getD 0 0) aval st1)
      else
        .next { st with done := st.done ++ [n], todo := rest,
                        smap := mapSet st.smap (n.outs.getD 0 0) State.Unknown }
    | Kind.autogradZero =>
      .next { st with done := st.done ++ [n], todo := rest,
                      smap := mapSet st.smap (n.outs.getD 0 0) State.Zero }
    | _ =>
      .next { st with done := st.done ++ [n], todo := rest,
                      smap := n.outs.foldl (fun m o => mapSet m o State.Unknown) st.smap }

inductive ScanRes where
  | ok : PassSt → ScanRes
  | abort : ScanRes
deriving DecidableEq

/-- The scan loop, fuel-indexed so that it evaluates by reduction; `none`
means the fuel ran out, which `runScanF_enough` below rules out for the fuel
the entry point supplies. -/
def runScanF : Nat → PassSt → Option ScanRes
  | 0, _ => none
  | fuel + 1, st =>
    match scanStep st with
    | .halt st' => some (.ok st')
    | .fatal => some .abort
    | .next st' => runScanF fuel st'

def countGradOf (l : List Node) : Nat :=
  (l.filter (fun n => n.kind == Kind.gradOf)).length

/-- Termination measure for the scan: the all-zero `gradOf` case replaces the
region by a zero literal in `todo` (same length, one `gradOf` fewer); every
other case shortens `todo`. -/
def scanMeasure (l : List Node) : Nat := l.length + countGradOf l

def initSt (g : Graph) : PassSt :=
  { done := [], todo := g.nodes, gouts := g.outputs,
    smap := initSMap g.inputs, fresh := freshStart g }

/-- `void specializeAutogradZero(Graph& g)`. `none` models the fatal
`AT_ASSERT`; on success the graph's top-level nodes are the scanned node list
and the Return node's inputs are the (possibly redirected) outputs. -/
def specializeAutogradZero (g : Graph) : Option Graph :=
  match runScanF (scanMeasure g.nodes + 1) (initSt g) with
  | some (ScanRes.ok st) =>
    some { inputs := g.inputs, nodes := st.done, outputs := st.gouts }
  | _ => none

/-! ## Derived notions used by the statements -/

/-- Where a use ends up after every value of `outs` has been redirected to
the single value `z`. -/
def redirectTo (outs : List Nat) (z v : Nat) : Nat := if v ∈ outs then z else v

/-- Where a use ends up after the i-th value of a pair list's first
components has been redirected to the i-th second component. -/
def redirectPairs (ps : List (Nat × Nat)) (v : Nat) : Nat :=
  match ps.find? (fun p => p.1 == v) with
  | some p => p.2
  | none => v

/-- The rewrite-invariant skeleton of a node list: identities, kinds and
definitions, which `replaceAllUsesWith` never changes. -/
def skel (l : List Node) : List (Nat × Kind × List Nat) :=
  l.map (fun n => (n.nid, n.kind, n.outs))

/-! ## Node-identity preservation invariant -/

/-- Node identity `k` occurs nowhere in the scan state and can never be
allocated again (the fresh counter is strictly above it). -/
def stOK (k : Nat) (st : PassSt) : Prop :=
  mentionsList k st.done = false ∧ mentionsList k st.todo = false ∧ k < st.fresh

/-- Iterating the scan cursor `k` times (stopping early is an error),
used to speak about the intermediate states the scan visits. -/
def iterScan : Nat → PassSt → Option PassSt
  | 0, st => some st
  | k + 1, st =>
    match scanStep st with
    | .next st' => iterScan k st'
    | _ => none

/-- A tensor type whose structurally-zero flag is present and true. -/
def tyZero : Ty := ⟨some (some true), true, false⟩

/-- A tensor type with the flag absent. -/
def tyNZ : Ty := ⟨some none, true, false⟩

/-- A type that is neither a tensor nor a subtype of tensor / tensor list. -/
def tyUnk : Ty := ⟨none, false, false⟩

/-- Concrete all-zero-region graph: one `Zero` input feeding a `gradOf`
region whose body holds an opaque node. -/
def gC3 : Graph :=
  { inputs := [(1, tyZero)],
    nodes := [Node.mk 10 Kind.gradOf [1] [11]
                [Node.mk 12 (Kind.other 0) [1] [13] [] []] [13]],
    outputs := [11] }

def nC3 : Node :=
  Node.mk 10 Kind.gradOf [1] [11] [Node.mk 12 (Kind.other 0) [1] [13] [] []] [13]

/-- Concrete empty-input-region graph for C10. -/
def gC10 : Graph :=
  { inputs := [(1, tyNZ)],
    nodes := [Node.mk 10 Kind.gradOf [] [11]
                [Node.mk 12 (Kind.other 0) [1] [13] [] []] [13]],
    outputs := [11] }

def nC10 : Node :=
  Node.mk 10 Kind.gradOf [] [11] [Node.mk 12 (Kind.other 0) [1] [13] [] []] [13]

/-- Concrete live-region graph for C4: a `Nonzero` input feeds the region,
whose body computes through an opaque node. -/
def gC4 : Graph :=
  { inputs := [(1, tyZero), (2, tyNZ)],
    nodes := [Node.mk 10 Kind.gradOf [2] [11]
                [Node.mk 12 (Kind.other 0) [1, 2] [13] [] []] [13]],
    outputs := [11] }

def nC4 : Node :=
  Node.mk 10 Kind.gradOf [2] [11] [Node.mk 12 (Kind.other 0) [1, 2] [13] [] []] [13]

/-- Concrete guarded additions for the add-rule claims. -/
def gC6 : Graph :=
  { inputs := [(1, tyZero), (2, tyNZ)],
    nodes := [Node.mk 10 Kind.autogradAdd [1, 2] [11] [] []],
    outputs := [11] }

def gC6b : Graph :=
  { inputs := [(1, tyNZ), (2, tyZero)],
    nodes := [Node.mk 10 Kind.autogradAdd [1, 2] [11] [] []],
    outputs := [11] }

def gC7 : Graph :=
  { inputs := [(1, tyNZ), (2, tyNZ)],
    nodes := [Node.mk 10 Kind.autogradAdd [1, 2] [11] [] []],
    outputs := [11] }

def gC8 : Graph :=
  { inputs := [(1, tyUnk), (2, tyNZ)],
    nodes := [Node.mk 10 Kind.autogradAdd [1, 2] [11] [] []],
    outputs := [11] }

/-- A region with a mixed `Unknown` / `Nonzero` input pair: the fatal case. -/
def gC5 : Graph :=
  { inputs := [(1, tyUnk), (2, tyNZ)],
    nodes := [Node.mk 10 Kind.gradOf [1, 2] [11]
                [Node.mk 12 (Kind.other 0) [1] [13] [] []] [13]],
    outputs := [11] }

/-!
## Apparatus for claim C9 (idempotence)
-/

/-- The classification assignments one scan step performs when it leaves the
node in place: `Zero` for a zero literal, `Unknown` for a surviving guarded
add, `Unknown` for every output of a default-case node. (`gradOf` never
survives a scan, so its clause is irrelevant; it assigns nothing.) -/
def clsNode (m : SMap) (n : Node) : SMap :=
  match n.kind with
  | Kind.autogradZero => mapSet m (n.outs.getD 0 0) State.Zero
  | Kind.autogradAdd => mapSet m (n.outs.getD 0 0) State.Unknown
  | Kind.gradOf => m
  | _ => n.outs.foldl (fun acc o => mapSet acc o State.Unknown) m

def clsFold (m : SMap) : List Node → SMap
  | [] => m
  | n :: ns => clsFold (clsNode m n) ns

/-- No top-level conditional region. -/
def noGradOfB (l : List Node) : Bool := l.all (fun n => n.kind != Kind.gradOf)

/-- Every guarded addition is binary with a single output, as the IR
constructs them (`n->input(0)`, `n->input(1)`, `n->output()`). -/
def addArityOk (l : List Node) : Bool :=
  l.all (fun n =>
    n.kind != Kind.autogradAdd || (n.ins.length == 2 && n.outs.length == 1))

/-- No value is used (anywhere, nested blocks included) strictly before the
node that defines it: `used` accumulates every use seen so far. -/
def wfChainB (used : List Nat) : List Node → Bool
  | [] => true
  | n :: ns =>
    n.outs.all (fun o => !(used.contains o)) && wfChainB (used ++ useNode n) ns

/-- All top-level output values of `l` lie below `f`. -/
def outsBelow (l : List Node) (f : Nat) : Prop :=
  ∀ m ∈ l, ∀ x ∈ m.outs, x < f

/-- The simulation relation between the first run's classification map and
the mutation-free classification of the emitted nodes: whatever the re-scan
sees as `Zero` the first run saw as `Zero`, and whatever the first run saw as
`Unknown` the re-scan sees as `Unknown`. -/
def SimCls (s1 s2 : SMap) : Prop :=
  ∀ v : Nat, (mapGetD s2 v = State.Zero → mapGetD s1 v = State.Zero) ∧
             (mapGetD s1 v = State.Unknown → mapGetD s2 v = State.Unknown)

/-- Under the map evolved by `clsNode`, every surviving guarded addition
takes the leave-it-alone branch: neither operand `Zero`, not both
`Nonzero`. -/
def StableFrom (m : SMap) : List Node → Prop
  | [] => True
  | n :: ns =>
    (n.kind = Kind.autogradAdd →
      mapGetD m (n.ins.getD 0 0) ≠ State.Zero ∧
      mapGetD m (n.ins.getD 1 0) ≠ State.Zero ∧
      ¬(mapGetD m (n.ins.getD 0 0) = State.Nonzero ∧
        mapGetD m (n.ins.getD 1 0) = State.Nonzero)) ∧
    StableFrom (clsNode m n) ns

/-- The C9 counterexample graph: a live region whose body holds a guarded
addition with a `Zero` operand. The first run splices the body without
re-visiting it; the second run then rewrites the exposed addition. -/
def g9 : Graph :=
  { inputs := [(1, tyZero), (2, tyNZ)],
    nodes := [Node.mk 10 Kind.gradOf [2] [11]
                [Node.mk 12 Kind.autogradAdd [1, 2] [13] [] []] [13]],
    outputs := [11] }

/-- `specializeAutogradZero g9`: the body's guarded addition, spliced. -/
def g9a : Graph :=
  { inputs := [(1, tyZero), (2, tyNZ)],
    nodes := [Node.mk 12 Kind.autogradAdd [1, 2] [13] [] []],
    outputs := [13] }

/-- `specializeAutogradZero g9a`: the addition collapses onto input 2. -/
def g9b : Graph :=
  { inputs := [(1, tyZero), (2, tyNZ)],
    nodes := [],
    outputs := [2] }

/-!
## Claim C1 — what an unclassified value reads as
-/

/-- Graph for the C1 counterexample: the live region's body holds an opaque
node whose output (value 13) is spliced past the cursor and never
classified; a later guarded addition reads it. -/
def g1c : Graph :=
  { inputs := [(1, tyNZ)],
    nodes := [Node.mk 10 Kind.gradOf [1] [11]
                [Node.mk 12 (Kind.other 0) [1] [13] [] []] [13],
              Node.mk 20 Kind.autogradAdd [13, 1] [21] [] []],
    outputs := [21] }

/-- The scan state on `g1c` right after the splice, with the cursor on the
guarded addition that is about to read the never-classified value 13. -/
def stMid1c : PassSt :=
  { done := [Node.mk 12 (Kind.other 0) [1] [13] [] []],
    todo := [Node.mk 20 Kind.autogradAdd [13, 1] [21] [] []],
    gouts := [21], smap := [(1, State.Nonzero)], fresh := 22 }

/-- The scan state `specializeAutogradZero` leaves behind on `g1c`. -/
def stF1c : PassSt :=
  { done := [Node.mk 12 (Kind.other 0) [1] [13] [] [],
             Node.mk 22 Kind.atenAdd [13, 1] [23] [] []],
    todo := [], gouts := [23],
    smap := [(23, State.Nonzero), (1, State.Nonzero)], fresh := 24 }

/-! ## Theorems -/

theorem synthesizePlainAdd_def (nid a b aval : Nat) :
    synthesizePlainAdd nid a b aval =
      Node.mk nid Kind.atenAdd [a, b] [aval] [] [] := rfl

/-! ## Basic lemmas -/

theorem useListN_append (l₁ l₂ : List Node) :
    useListN (l₁ ++ l₂) = useListN l₁ ++ useListN l₂ := by
  induction l₁ with
  | nil => simp [useListN]
  | cons n ns ih => simp [useListN, ih]

theorem replaceUsesList_append (o r : Nat) (l₁ l₂ : List Node) :
    replaceUsesList o r (l₁ ++ l₂) =
      replaceUsesList o r l₁ ++ replaceUsesList o r l₂ := by
  induction l₁ with
  | nil => simp [replaceUsesList]
  | cons n ns ih => simp [replaceUsesList, ih]

theorem mentionsList_append (k : Nat) (l₁ l₂ : List Node) :
    mentionsList k (l₁ ++ l₂) = (mentionsList k l₁ || mentionsList k l₂) := by
  induction l₁ with
  | nil => simp [mentionsList]
  | cons n ns ih => simp [mentionsList, ih, Bool.or_assoc]

mutual

theorem useNode_replace (o r : Nat) :
    ∀ n : Node, useNode (replaceUsesNode o r n) = (useNode n).map (substV o r)
  | .mk i k is os b bo => by
    simp only [replaceUsesNode, useNode, List.map_append]
    rw [useListN_replace o r b]

theorem useListN_replace (o r : Nat) :
    ∀ l : List Node, useListN (replaceUsesList o r l) = (useListN l).map (substV o r)
  | [] => by simp [replaceUsesList, useListN]
  | n :: ns => by
    simp only [replaceUsesList, useListN, List.map_append]
    rw [useNode_replace o r n, useListN_replace o r ns]

end

mutual

theorem mentionsNode_replace (k o r : Nat) :
    ∀ n : Node, mentionsNode k (replaceUsesNode o r n) = mentionsNode k n
  | .mk i kk is os b bo => by
    simp only [replaceUsesNode, mentionsNode]
    rw [mentionsList_replace k o r b]

theorem mentionsList_replace (k o r : Nat) :
    ∀ l : List Node, mentionsList k (replaceUsesList o r l) = mentionsList k l
  | [] => by simp [replaceUsesList]
  | n :: ns => by
    simp only [replaceUsesList, mentionsList]
    rw [mentionsNode_replace k o r n, mentionsList_replace k o r ns]

end

theorem nid_replace (o r : Nat) (n : Node) :
    (replaceUsesNode o r n).nid = n.nid := by
  cases n; simp [replaceUsesNode, Node.nid]

theorem kind_replace (o r : Nat) (n : Node) :
    (replaceUsesNode o r n).kind = n.kind := by
  cases n; simp [replaceUsesNode, Node.kind]

theorem outs_replace (o r : Nat) (n : Node) :
    (replaceUsesNode o r n).outs = n.outs := by
  cases n; simp [replaceUsesNode, Node.outs]

theorem skel_replace (o r : Nat) (l : List Node) :
    skel (replaceUsesList o r l) = skel l := by
  induction l with
  | nil => simp [replaceUsesList, skel]
  | cons n ns ih =>
    simp only [replaceUsesList, skel, List.map_cons] at ih ⊢
    rw [nid_replace, kind_replace, outs_replace, ih]

theorem skel_append (l₁ l₂ : List Node) : skel (l₁ ++ l₂) = skel l₁ ++ skel l₂ := by
  simp [skel]

theorem length_replaceUsesList (o r : Nat) (l : List Node) :
    (replaceUsesList o r l).length = l.length := by
  induction l with
  | nil => rfl
  | cons n ns ih => simp [replaceUsesList, ih]

theorem countGradOf_replaceUsesList (o r : Nat) (l : List Node) :
    countGradOf (replaceUsesList o r l) = countGradOf l := by
  induction l with
  | nil => rfl
  | cons n ns ih =>
    simp only [replaceUsesList, countGradOf, List.filter] at ih ⊢
    rw [kind_replace]
    cases n.kind == Kind.gradOf <;> simp_all

theorem scanMeasure_replaceUsesList (o r : Nat) (l : List Node) :
    scanMeasure (replaceUsesList o r l) = scanMeasure l := by
  simp [scanMeasure, length_replaceUsesList, countGradOf_replaceUsesList]

theorem map_substV_id (o r : Nat) (l : List Nat) (h : o ∉ l) :
    l.map (substV o r) = l := by
  induction l with
  | nil => rfl
  | cons x xs ih =>
    simp only [List.mem_cons, not_or] at h
    have hx : substV o r x = x := if_neg (fun he => h.1 he.symm)
    simp only [List.map_cons, hx, ih h.2]

mutual

theorem replaceUsesNode_id (o r : Nat) :
    ∀ n : Node, o ∉ useNode n → replaceUsesNode o r n = n
  | .mk i k is os b bo => by
    intro h
    simp only [useNode, List.mem_append] at h
    push_neg at h
    obtain ⟨⟨h1, h2⟩, h3⟩ := h
    simp only [replaceUsesNode, Node.mk.injEq]
    exact ⟨trivial, trivial, map_substV_id o r is h1, trivial,
      replaceUsesList_id o r b h2, map_substV_id o r bo h3⟩

theorem replaceUsesList_id (o r : Nat) :
    ∀ l : List Node, o ∉ useListN l → replaceUsesList o r l = l
  | [] => by intro _; rfl
  | n :: ns => by
    intro h
    simp only [useListN, List.mem_append] at h
    push_neg at h
    simp only [replaceUsesList]
    rw [replaceUsesNode_id o r n h.1, replaceUsesList_id o r ns h.2]

end

/-! ## Classification-map lemmas -/

theorem mapFind_set (m : SMap) (v v' : Nat) (s : State) :
    mapFind (mapSet m v s) v' = if v = v' then some s else mapFind m v' := by
  simp only [mapSet, mapFind, List.find?]
  by_cases h : v = v'
  · simp [h]
  · simp only [beq_iff_eq, h, if_false]
    have : ((v, s).1 == v') = false := by simpa using h
    simp [this]

theorem mapGetD_set (m : SMap) (v v' : Nat) (s : State) :
    mapGetD (mapSet m v s) v' = if v = v' then s else mapGetD m v' := by
  simp only [mapGetD, mapFind_set]
  by_cases h : v = v' <;> simp [h]

/-! ## Fold-of-replacement lemmas -/

theorem foldReplace_cons (z : Nat) (outs : List Nat) (n : Node) (l : List Node) :
    outs.foldl (fun acc o => replaceUsesList o z acc) (n :: l) =
      outs.foldl (fun m o => replaceUsesNode o z m) n ::
        outs.foldl (fun acc o => replaceUsesList o z acc) l := by
  induction outs generalizing n l with
  | nil => rfl
  | cons o os ih => simp only [List.foldl_cons, replaceUsesList, ih]

theorem foldReplace_useListN (z : Nat) (outs : List Nat) (hz : z ∉ outs)
    (l : List Node) :
    useListN (outs.foldl (fun acc o => replaceUsesList o z acc) l) =
      (useListN l).map (redirectTo outs z) := by
  induction outs generalizing l with
  | nil =>
    symm
    exact (List.map_congr_left (fun v _ => by simp [redirectTo] :
      ∀ v ∈ useListN l, redirectTo [] z v = id v)).trans (List.map_id _)
  | cons o os ih =>
    simp only [List.mem_cons, not_or] at hz
    simp only [List.foldl_cons]
    rw [ih hz.2, useListN_replace, List.map_map]
    apply List.map_congr_left
    intro v _
    simp only [Function.comp_apply, substV, redirectTo, List.mem_cons]
    by_cases hvo : v = o
    · simp [hvo, if_neg hz.2]
    · simp only [if_neg hvo]
      by_cases hvs : v ∈ os <;> simp [hvs, hvo]

theorem foldSubst_map (z : Nat) (outs : List Nat) (hz : z ∉ outs)
    (vs : List Nat) :
    outs.foldl (fun acc o => acc.map (substV o z)) vs =
      vs.map (redirectTo outs z) := by
  induction outs generalizing vs with
  | nil =>
    symm
    exact (List.map_congr_left (fun v _ => by simp [redirectTo] :
      ∀ v ∈ vs, redirectTo [] z v = id v)).trans (List.map_id _)
  | cons o os ih =>
    simp only [List.mem_cons, not_or] at hz
    simp only [List.foldl_cons]
    rw [ih hz.2, List.map_map]
    apply List.map_congr_left
    intro v _
    simp only [Function.comp_apply, substV, redirectTo, List.mem_cons]
    by_cases hvo : v = o
    · simp [hvo, if_neg hz.2]
    · simp only [if_neg hvo]
      by_cases hvs : v ∈ os <;> simp [hvs, hvo]

theorem foldReplacePairs_useListN (ps : List (Nat × Nat))
    (hp : ∀ p ∈ ps, p.2 ∉ ps.map Prod.fst) (l : List Node) :
    useListN (ps.foldl (fun acc p => replaceUsesList p.1 p.2 acc) l) =
      (useListN l).map (redirectPairs ps) := by
  induction ps generalizing l with
  | nil =>
    symm
    exact (List.map_congr_left (fun v _ => by simp [redirectPairs, List.find?] :
      ∀ v ∈ useListN l, redirectPairs [] v = id v)).trans (List.map_id _)
  | cons p ps' ih =>
    obtain ⟨o, r⟩ := p
    have hr : r ∉ (ps' : List (Nat × Nat)).map Prod.fst := by
      have := hp (o, r) (List.mem_cons_self _ _)
      simp only [List.map_cons, List.mem_cons, not_or] at this
      exact this.2
    have hp' : ∀ q ∈ ps', q.2 ∉ ps'.map Prod.fst := by
      intro q hq
      have := hp q (List.mem_cons_of_mem _ hq)
      simp only [List.map_cons, List.mem_cons, not_or] at this
      exact this.2
    simp only [List.foldl_cons]
    rw [ih hp', useListN_replace, List.map_map]
    apply List.map_congr_left
    intro v _
    simp only [Function.comp_apply, substV, redirectPairs, List.find?]
    by_cases hvo : v = o
    · have : (o == v) = true := by simp [hvo]
      simp only [hvo, if_pos rfl, this]
      have hnone : (ps'.find? (fun q => q.1 == r)) = none := by
        rw [List.find?_eq_none]
        intro q hq
        simp only [beq_iff_eq]
        intro he
        exact hr (he ▸ List.mem_map_of_mem Prod.fst hq)
      simp [hnone]
    · have hov : (o == v) = false := by
        simp only [beq_eq_false_iff_ne, ne_eq]
        exact fun h => hvo h.symm
      simp [if_neg hvo, hov]

theorem foldSubstPairs_map (ps : List (Nat × Nat))
    (hp : ∀ p ∈ ps, p.2 ∉ ps.map Prod.fst) (vs : List Nat) :
    ps.foldl (fun acc p => acc.map (substV p.1 p.2)) vs =
      vs.map (redirectPairs ps) := by
  induction ps generalizing vs with
  | nil =>
    symm
    exact (List.map_congr_left (fun v _ => by simp [redirectPairs, List.find?] :
      ∀ v ∈ vs, redirectPairs [] v = id v)).trans (List.map_id _)
  | cons p ps' ih =>
    obtain ⟨o, r⟩ := p
    have hr : r ∉ (ps' : List (Nat × Nat)).map Prod.fst := by
      have := hp (o, r) (List.mem_cons_self _ _)
      simp only [List.map_cons, List.mem_cons, not_or] at this
      exact this.2
    have hp' : ∀ q ∈ ps', q.2 ∉ ps'.map Prod.fst := by
      intro q hq
      have := hp q (List.mem_cons_of_mem _ hq)
      simp only [List.map_cons, List.mem_cons, not_or] at this
      exact this.2
    simp only [List.foldl_cons]
    rw [ih hp', List.map_map]
    apply List.map_congr_left
    intro v _
    simp only [Function.comp_apply, substV, redirectPairs, List.find?]
    by_cases hvo : v = o
    · have : (o == v) = true := by simp [hvo]
      simp only [hvo, if_pos rfl, this]
      have hnone : (ps'.find? (fun q => q.1 == r)) = none := by
        rw [List.find?_eq_none]
        intro q hq
        simp only [beq_iff_eq]
        intro he
        exact hr (he ▸ List.mem_map_of_mem Prod.fst hq)
      simp [hnone]
    · have hov : (o == v) = false := by
        simp only [beq_eq_false_iff_ne, ne_eq]
        exact fun h => hvo h.symm
      simp [if_neg hvo, hov]

/-! ## `replaceAll` and fold decomposition at the scan-state level -/

theorem foldReplaceAll_eq (z : Nat) (outs : List Nat) (st : PassSt) :
    outs.foldl (fun s o => replaceAll o z s) st =
      { done := outs.foldl (fun l o => replaceUsesList o z l) st.done,
        todo := outs.foldl (fun l o => replaceUsesList o z l) st.todo,
        gouts := outs.foldl (fun l o => l.map (substV o z)) st.gouts,
        smap := st.smap, fresh := st.fresh } := by
  induction outs generalizing st with
  | nil => rfl
  | cons o os ih =>
    simp only [List.foldl_cons, ih]
    rfl

theorem foldReplaceAllPairs_eq (ps : List (Nat × Nat)) (st : PassSt) :
    ps.foldl (fun s p => replaceAll p.1 p.2 s) st =
      { done := ps.foldl (fun l p => replaceUsesList p.1 p.2 l) st.done,
        todo := ps.foldl (fun l p => replaceUsesList p.1 p.2 l) st.todo,
        gouts := ps.foldl (fun l p => l.map (substV p.1 p.2)) st.gouts,
        smap := st.smap, fresh := st.fresh } := by
  induction ps generalizing st with
  | nil => rfl
  | cons p ps' ih =>
    simp only [List.foldl_cons, ih]
    rfl

theorem countGradOf_cons (n : Node) (l : List Node) :
    countGradOf (n :: l) =
      (if n.kind = Kind.gradOf then 1 else 0) + countGradOf l := by
  simp only [countGradOf, List.filter]
  by_cases h : n.kind = Kind.gradOf
  · simp [h]; omega
  · have : (n.kind == Kind.gradOf) = false := by simpa using h
    simp [h, this]

theorem scanMeasure_foldReplace (z : Nat) (outs : List Nat) (l : List Node) :
    scanMeasure (outs.foldl (fun acc o => replaceUsesList o z acc) l) =
      scanMeasure l := by
  induction outs generalizing l with
  | nil => rfl
  | cons o os ih => simp only [List.foldl_cons, ih, scanMeasure_replaceUsesList]

theorem scanMeasure_foldReplacePairs (ps : List (Nat × Nat)) (l : List Node) :
    scanMeasure (ps.foldl (fun acc p => replaceUsesList p.1 p.2 acc) l) =
      scanMeasure l := by
  induction ps generalizing l with
  | nil => rfl
  | cons p ps' ih => simp only [List.foldl_cons, ih, scanMeasure_replaceUsesList]

/-! ## Case characterizations of `scanStep` -/

theorem scanStep_halt (st : PassSt) (h : st.todo = []) : scanStep st = .halt st := by
  simp [scanStep, h]

theorem scanStep_gradof_zero (st : PassSt) (n : Node) (rest : List Node)
    (ht : st.todo = n :: rest) (hk : n.kind = Kind.gradOf)
    (hz : n.ins.all (fun v => mapGetD st.smap v == State.Zero) = true) :
    scanStep st = .next (n.outs.foldl (fun s o => replaceAll o (st.fresh + 1) s)
      { st with
        todo := Node.mk st.fresh Kind.autogradZero [] [st.fresh + 1] [] [] :: rest,
        fresh := st.fresh + 2 }) := by
  simp [scanStep, ht, hk, hz]

theorem scanStep_gradof_splice (st : PassSt) (n : Node) (rest : List Node)
    (ht : st.todo = n :: rest) (hk : n.kind = Kind.gradOf)
    (hz : n.ins.all (fun v => mapGetD st.smap v == State.Zero) = false)
    (hu : n.ins.all (fun v => mapGetD st.smap v != State.Unknown) = true) :
    scanStep st = .next ((n.outs.zip n.bouts).foldl (fun s p => replaceAll p.1 p.2 s)
      { st with done := st.done ++ n.body, todo := rest }) := by
  simp [scanStep, ht, hk, hz, hu]

theorem scanStep_gradof_fatal (st : PassSt) (n : Node) (rest : List Node)
    (ht : st.todo = n :: rest) (hk : n.kind = Kind.gradOf)
    (hz : n.ins.all (fun v => mapGetD st.smap v == State.Zero) = false)
    (hu : n.ins.all (fun v => mapGetD st.smap v != State.Unknown) = false) :
    scanStep st = .fatal := by
  simp [scanStep, ht, hk, hz, hu]

theorem scanStep_add_zeroA (st : PassSt) (n : Node) (rest : List Node)
    (ht : st.todo = n :: rest) (hk : n.kind = Kind.autogradAdd)
    (ha : mapGetD st.smap (n.ins.getD 0 0) = State.Zero) :
    scanStep st = .next (replaceAll (n.outs.getD 0 0) (n.ins.getD 1 0)
      { st with todo := rest }) := by
  have ha' := ha
  simp only [List.getD_eq_getElem?_getD] at ha'
  simp [scanStep, ht, hk, ha']

theorem scanStep_add_zeroB (st : PassSt) (n : Node) (rest : List Node)
    (ht : st.todo = n :: rest) (hk : n.kind = Kind.autogradAdd)
    (ha : mapGetD st.smap (n.ins.getD 0 0) ≠ State.Zero)
    (hb : mapGetD st.smap (n.ins.getD 1 0) = State.Zero) :
    scanStep st = .next (replaceAll (n.outs.getD 0 0) (n.ins.getD 0 0)
      { st with todo := rest }) := by
  have ha' := ha; have hb' := hb
  simp only [List.getD_eq_getElem?_getD] at ha' hb'
  simp [scanStep, ht, hk, ha', hb']

theorem scanStep_add_bothNZ (st : PassSt) (n : Node) (rest : List Node)
    (ht : st.todo = n :: rest) (hk : n.kind = Kind.autogradAdd)
    (ha : mapGetD st.smap (n.ins.getD 0 0) = State.Nonzero)
    (hb : mapGetD st.smap (n.ins.getD 1 0) = State.Nonzero) :
    scanStep st = .next (replaceAll (n.outs.getD 0 0) (st.fresh + 1)
      { st with
        done := st.done ++
          [synthesizePlainAdd st.fresh (n.ins.getD 0 0) (n.ins.getD 1 0)
            (st.fresh + 1)],
        todo := rest,
        smap := mapSet st.smap (st.fresh + 1) State.Nonzero,
        fresh := st.fresh + 2 }) := by
  have ha' := ha; have hb' := hb
  simp only [List.getD_eq_getElem?_getD] at ha' hb'
  simp [scanStep, ht, hk, ha', hb']

theorem scanStep_add_leave (st : PassSt) (n : Node) (rest : List Node)
    (ht : st.todo = n :: rest) (hk : n.kind = Kind.autogradAdd)
    (ha : mapGetD st.smap (n.ins.getD 0 0) ≠ State.Zero)
    (hb : mapGetD st.smap (n.ins.getD 1 0) ≠ State.Zero)
    (hnn : ¬(mapGetD st.smap (n.ins.getD 0 0) = State.Nonzero ∧
             mapGetD st.smap (n.ins.getD 1 0) = State.Nonzero)) :
    scanStep st = .next { st with
      done := st.done ++ [n], todo := rest,
      smap := mapSet st.smap (n.outs.getD 0 0) State.Unknown } := by
  have ha' := ha; have hb' := hb
  have hnn' : ¬(mapGetD st.smap (n.ins[0]?.getD 0) = State.Nonzero ∧
      mapGetD st.smap (n.ins[1]?.getD 0) = State.Nonzero) := by
    simpa [List.getD_eq_getElem?_getD] using hnn
  simp only [List.getD_eq_getElem?_getD] at ha' hb'
  simp [scanStep, ht, hk, ha', hb', hnn']

theorem scanStep_zero (st : PassSt) (n : Node) (rest : List Node)
    (ht : st.todo = n :: rest) (hk : n.kind = Kind.autogradZero) :
    scanStep st = .next { st with
      done := st.done ++ [n], todo := rest,
      smap := mapSet st.smap (n.outs.getD 0 0) State.Zero } := by
  simp [scanStep, ht, hk]

theorem scanStep_default (st : PassSt) (n : Node) (rest : List Node)
    (ht : st.todo = n :: rest)
    (hk : n.kind = Kind.atenAdd ∨ ∃ t, n.kind = Kind.other t) :
    scanStep st = .next { st with
      done := st.done ++ [n], todo := rest,
      smap := n.outs.foldl (fun m o => mapSet m o State.Unknown) st.smap } := by
  rcases hk with hk | ⟨t, hk⟩ <;> simp [scanStep, ht, hk]

/-! ## Fuel lemmas -/

theorem scanStep_next_measure (st st' : PassSt) (h : scanStep st = .next st') :
    scanMeasure st'.todo < scanMeasure st.todo := by
  cases ht : st.todo with
  | nil => rw [scanStep_halt st ht] at h; cases h
  | cons n rest =>
    have hrest : scanMeasure rest < scanMeasure (n :: rest) := by
      simp only [scanMeasure, countGradOf_cons, List.length_cons]
      rcases Decidable.em (n.kind = Kind.gradOf) with hg | hg <;>
        simp only [hg, if_pos, if_neg, if_true, if_false, reduceIte] <;> omega
    cases hk : n.kind with
    | gradOf =>
      cases hz : n.ins.all (fun v => mapGetD st.smap v == State.Zero) with
      | true =>
        rw [scanStep_gradof_zero st n rest ht hk hz] at h
        cases h
        rw [foldReplaceAll_eq]
        dsimp only
        rw [scanMeasure_foldReplace]
        simp only [scanMeasure, countGradOf_cons, List.length_cons, hk]
        simp [Node.kind]
      | false =>
        cases hu : n.ins.all (fun v => mapGetD st.smap v != State.Unknown) with
        | true =>
          rw [scanStep_gradof_splice st n rest ht hk hz hu] at h
          cases h
          rw [foldReplaceAllPairs_eq]
          dsimp only
          rw [scanMeasure_foldReplacePairs]
          simp only [scanMeasure, countGradOf_cons, List.length_cons, hk]
          simp
          omega
        | false =>
          rw [scanStep_gradof_fatal st n rest ht hk hz hu] at h
          cases h
    | autogradAdd =>
      rcases Decidable.em (mapGetD st.smap (n.ins.getD 0 0) = State.Zero) with ha | ha
      · rw [scanStep_add_zeroA st n rest ht hk ha] at h
        cases h
        simp only [replaceAll, scanMeasure_replaceUsesList]
        exact hrest
      · rcases Decidable.em (mapGetD st.smap (n.ins.getD 1 0) = State.Zero) with hb | hb
        · rw [scanStep_add_zeroB st n rest ht hk ha hb] at h
          cases h
          simp only [replaceAll, scanMeasure_replaceUsesList]
          exact hrest
        · rcases Decidable.em (mapGetD st.smap (n.ins.getD 0 0) = State.Nonzero ∧
              mapGetD st.smap (n.ins.getD 1 0) = State.Nonzero) with hnn | hnn
          · rw [scanStep_add_bothNZ st n rest ht hk hnn.1 hnn.2] at h
            cases h
            simp only [replaceAll, scanMeasure_replaceUsesList]
            exact hrest
          · rw [scanStep_add_leave st n rest ht hk ha hb hnn] at h
            cases h
            exact hrest
    | autogradZero =>
      rw [scanStep_zero st n rest ht hk] at h
      cases h
      exact hrest
    | atenAdd =>
      rw [scanStep_default st n rest ht (Or.inl hk)] at h
      cases h
      exact hrest
    | other t =>
      rw [scanStep_default st n rest ht (Or.inr ⟨t, hk⟩)] at h
      cases h
      exact hrest

theorem runScanF_isSome (fuel : Nat) (st : PassSt)
    (h : scanMeasure st.todo < fuel) : (runScanF fuel st).isSome := by
  induction fuel generalizing st with
  | zero => omega
  | succ f ih =>
    simp only [runScanF]
    cases hs : scanStep st with
    | halt st' => simp
    | fatal => simp
    | next st' =>
      have := scanStep_next_measure st st' hs
      exact ih st' (by omega)

theorem runScanF_irrel (f₁ : Nat) (st : PassSt) (f₂ : Nat)
    (h₁ : scanMeasure st.todo < f₁) (h₂ : scanMeasure st.todo < f₂) :
    runScanF f₁ st = runScanF f₂ st := by
  induction f₁ generalizing st f₂ with
  | zero => omega
  | succ f ih =>
    cases f₂ with
    | zero => omega
    | succ f₂' =>
      simp only [runScanF]
      cases hs : scanStep st with
      | halt st' => rfl
      | fatal => rfl
      | next st' =>
        have := scanStep_next_measure st st' hs
        exact ih st' f₂' (by omega) (by omega)

theorem runScanF_step (st st' : PassSt) (fuel : Nat)
    (h : scanStep st = .next st') (hf : scanMeasure st.todo < fuel) :
    runScanF fuel st = runScanF fuel st' := by
  cases fuel with
  | zero => omega
  | succ f =>
    have hm := scanStep_next_measure st st' h
    calc runScanF (f + 1) st = runScanF f st' := by simp only [runScanF, h]
    _ = runScanF (f + 1) st' := runScanF_irrel f st' (f + 1) (by omega) (by omega)

/-! ## Boolean bridges for the dispatch conditions -/

theorem allZero_iff (m : SMap) (l : List Nat) :
    (l.all (fun v => mapGetD m v == State.Zero) = true) ↔
      ∀ v ∈ l, mapGetD m v = State.Zero := by
  simp [List.all_eq_true]

theorem allNotUnknown_false_iff (m : SMap) (l : List Nat) :
    (l.all (fun v => mapGetD m v != State.Unknown) = false) ↔
      ∃ v ∈ l, mapGetD m v = State.Unknown := by
  rw [← Bool.not_eq_true, List.all_eq_true]
  simp [bne]

theorem mentionsList_foldReplace (k z : Nat) (outs : List Nat) (l : List Node) :
    mentionsList k (outs.foldl (fun acc o => replaceUsesList o z acc) l) =
      mentionsList k l := by
  induction outs generalizing l with
  | nil => rfl
  | cons o os ih => simp only [List.foldl_cons, ih, mentionsList_replace]

theorem mentionsList_foldReplacePairs (k : Nat) (ps : List (Nat × Nat))
    (l : List Node) :
    mentionsList k (ps.foldl (fun acc p => replaceUsesList p.1 p.2 acc) l) =
      mentionsList k l := by
  induction ps generalizing l with
  | nil => rfl
  | cons p ps' ih => simp only [List.foldl_cons, ih, mentionsList_replace]

theorem mentionsList_cons (k : Nat) (n : Node) (l : List Node) :
    mentionsList k (n :: l) = (mentionsNode k n || mentionsList k l) := rfl

theorem scanStep_stOK (k : Nat) (st st' : PassSt) (h : scanStep st = .next st')
    (hok : stOK k st) : stOK k st' := by
  obtain ⟨hd, ht0, hf⟩ := hok
  cases ht : st.todo with
  | nil => rw [scanStep_halt st ht] at h; cases h
  | cons n rest =>
    rw [ht, mentionsList_cons, Bool.or_eq_false_iff] at ht0
    obtain ⟨htn, htr⟩ := ht0
    cases hk : n.kind with
    | gradOf =>
      cases hz : n.ins.all (fun v => mapGetD st.smap v == State.Zero) with
      | true =>
        rw [scanStep_gradof_zero st n rest ht hk hz] at h
        cases h
        rw [foldReplaceAll_eq]
        refine ⟨?_, ?_, ?_⟩
        · rw [mentionsList_foldReplace]; exact hd
        · rw [mentionsList_foldReplace, mentionsList_cons]
          have : mentionsNode k (Node.mk st.fresh Kind.autogradZero [] [st.fresh + 1] [] []) = false := by
            simp [mentionsNode, mentionsList]
            omega
          rw [this, htr]
          rfl
        · show k < st.fresh + 2
          omega
      | false =>
        cases hu : n.ins.all (fun v => mapGetD st.smap v != State.Unknown) with
        | true =>
          rw [scanStep_gradof_splice st n rest ht hk hz hu] at h
          cases h
          rw [foldReplaceAllPairs_eq]
          refine ⟨?_, ?_, ?_⟩
          · rw [mentionsList_foldReplacePairs, mentionsList_append, hd]
            cases nn : n with
            | mk i kk is os b bo =>
              have := htn
              rw [nn] at this
              simp only [mentionsNode, Bool.or_eq_false_iff] at this
              simp [Node.body, this.2]
          · rw [mentionsList_foldReplacePairs]; exact htr
          · exact hf
        | false =>
          rw [scanStep_gradof_fatal st n rest ht hk hz hu] at h
          cases h
    | autogradAdd =>
      rcases Decidable.em (mapGetD st.smap (n.ins.getD 0 0) = State.Zero) with ha | ha
      · rw [scanStep_add_zeroA st n rest ht hk ha] at h
        cases h
        exact ⟨by simp [replaceAll, mentionsList_replace, hd],
               by simp [replaceAll, mentionsList_replace, htr], hf⟩
      · rcases Decidable.em (mapGetD st.smap (n.ins.getD 1 0) = State.Zero) with hb | hb
        · rw [scanStep_add_zeroB st n rest ht hk ha hb] at h
          cases h
          exact ⟨by simp [replaceAll, mentionsList_replace, hd],
                 by simp [replaceAll, mentionsList_replace, htr], hf⟩
        · rcases Decidable.em (mapGetD st.smap (n.ins.getD 0 0) = State.Nonzero ∧
              mapGetD st.smap (n.ins.getD 1 0) = State.Nonzero) with hnn | hnn
          · rw [scanStep_add_bothNZ st n rest ht hk hnn.1 hnn.2] at h
            cases h
            simp only [synthesizePlainAdd_def]
            refine ⟨?_, by simp [replaceAll, mentionsList_replace, htr],
              by show k < st.fresh + 2; omega⟩
            simp only [replaceAll]
            rw [mentionsList_replace, mentionsList_append, hd]
            simp [mentionsList, mentionsNode]
            omega
          · rw [scanStep_add_leave st n rest ht hk ha hb hnn] at h
            cases h
            exact ⟨by rw [mentionsList_append, hd, mentionsList_cons, htn]; rfl, htr, hf⟩
    | autogradZero =>
      rw [scanStep_zero st n rest ht hk] at h
      cases h
      exact ⟨by rw [mentionsList_append, hd, mentionsList_cons, htn]; rfl, htr, hf⟩
    | atenAdd =>
      rw [scanStep_default st n rest ht (Or.inl hk)] at h
      cases h
      exact ⟨by rw [mentionsList_append, hd, mentionsList_cons, htn]; rfl, htr, hf⟩
    | other t =>
      rw [scanStep_default st n rest ht (Or.inr ⟨t, hk⟩)] at h
      cases h
      exact ⟨by rw [mentionsList_append, hd, mentionsList_cons, htn]; rfl, htr, hf⟩

theorem scanStep_halt_inv (st st' : PassSt) (h : scanStep st = .halt st') :
    st' = st ∧ st.todo = [] := by
  cases ht : st.todo with
  | nil =>
    rw [scanStep_halt st ht] at h
    cases h
    exact ⟨rfl, rfl⟩
  | cons n rest =>
    exfalso
    cases hk : n.kind with
    | gradOf =>
      cases hz : n.ins.all (fun v => mapGetD st.smap v == State.Zero) with
      | true => rw [scanStep_gradof_zero st n rest ht hk hz] at h; cases h
      | false =>
        cases hu : n.ins.all (fun v => mapGetD st.smap v != State.Unknown) with
        | true => rw [scanStep_gradof_splice st n rest ht hk hz hu] at h; cases h
        | false => rw [scanStep_gradof_fatal st n rest ht hk hz hu] at h; cases h
    | autogradAdd =>
      rcases Decidable.em (mapGetD st.smap (n.ins.getD 0 0) = State.Zero) with ha | ha
      · rw [scanStep_add_zeroA st n rest ht hk ha] at h; cases h
      · rcases Decidable.em (mapGetD st.smap (n.ins.getD 1 0) = State.Zero) with hb | hb
        · rw [scanStep_add_zeroB st n rest ht hk ha hb] at h; cases h
        · rcases Decidable.em (mapGetD st.smap (n.ins.getD 0 0) = State.Nonzero ∧
              mapGetD st.smap (n.ins.getD 1 0) = State.Nonzero) with hnn | hnn
          · rw [scanStep_add_bothNZ st n rest ht hk hnn.1 hnn.2] at h; cases h
          · rw [scanStep_add_leave st n rest ht hk ha hb hnn] at h; cases h
    | autogradZero => rw [scanStep_zero st n rest ht hk] at h; cases h
    | atenAdd => rw [scanStep_default st n rest ht (Or.inl hk)] at h; cases h
    | other t => rw [scanStep_default st n rest ht (Or.inr ⟨t, hk⟩)] at h; cases h

theorem scanStep_fatal_inv (st : PassSt) (h : scanStep st = .fatal) :
    ∃ n rest, st.todo = n :: rest ∧ n.kind = Kind.gradOf ∧
      ¬(∀ v ∈ n.ins, mapGetD st.smap v = State.Zero) ∧
      (∃ v ∈ n.ins, mapGetD st.smap v = State.Unknown) := by
  cases ht : st.todo with
  | nil => rw [scanStep_halt st ht] at h; cases h
  | cons n rest =>
    cases hk : n.kind with
    | gradOf =>
      cases hz : n.ins.all (fun v => mapGetD st.smap v == State.Zero) with
      | true => rw [scanStep_gradof_zero st n rest ht hk hz] at h; cases h
      | false =>
        cases hu : n.ins.all (fun v => mapGetD st.smap v != State.Unknown) with
        | true => rw [scanStep_gradof_splice st n rest ht hk hz hu] at h; cases h
        | false =>
          refine ⟨n, rest, rfl, hk, ?_, ?_⟩
          · intro hall
            have := (allZero_iff st.smap n.ins).mpr hall
            rw [hz] at this
            cases this
          · exact (allNotUnknown_false_iff st.smap n.ins).mp hu
    | autogradAdd =>
      exfalso
      rcases Decidable.em (mapGetD st.smap (n.ins.getD 0 0) = State.Zero) with ha | ha
      · rw [scanStep_add_zeroA st n rest ht hk ha] at h; cases h
      · rcases Decidable.em (mapGetD st.smap (n.ins.getD 1 0) = State.Zero) with hb | hb
        · rw [scanStep_add_zeroB st n rest ht hk ha hb] at h; cases h
        · rcases Decidable.em (mapGetD st.smap (n.ins.getD 0 0) = State.Nonzero ∧
              mapGetD st.smap (n.ins.getD 1 0) = State.Nonzero) with hnn | hnn
          · rw [scanStep_add_bothNZ st n rest ht hk hnn.1 hnn.2] at h; cases h
          · rw [scanStep_add_leave st n rest ht hk ha hb hnn] at h; cases h
    | autogradZero => rw [scanStep_zero st n rest ht hk] at h; cases h
    | atenAdd => rw [scanStep_default st n rest ht (Or.inl hk)] at h; cases h
    | other t => rw [scanStep_default st n rest ht (Or.inr ⟨t, hk⟩)] at h; cases h

theorem runScanF_stOK (fuel k : Nat) (st stF : PassSt)
    (h : runScanF fuel st = some (.ok stF)) (hok : stOK k st) :
    mentionsList k stF.done = false := by
  induction fuel generalizing st with
  | zero => cases h
  | succ f ih =>
    rw [runScanF] at h
    cases hs : scanStep st with
    | halt st1 =>
      rw [hs] at h
      obtain ⟨he, -⟩ := scanStep_halt_inv st st1 hs
      cases h
      exact (he ▸ hok).1
    | fatal => rw [hs] at h; cases h
    | next st' =>
      rw [hs] at h
      exact ih st' h (scanStep_stOK k st st' hs hok)

theorem runScanF_abort_inv (fuel : Nat) (st : PassSt)
    (h : runScanF fuel st = some .abort) :
    ∃ k st', iterScan k st = some st' ∧ scanStep st' = .fatal := by
  induction fuel generalizing st with
  | zero => cases h
  | succ f ih =>
    rw [runScanF] at h
    cases hs : scanStep st with
    | halt st1 => rw [hs] at h; cases h
    | fatal => exact ⟨0, st, rfl, hs⟩
    | next st' =>
      rw [hs] at h
      obtain ⟨k, st'', h1, h2⟩ := ih st' h
      exact ⟨k + 1, st'', by simp [iterScan, hs, h1], h2⟩

theorem iterScan_abort (fuel k : Nat) (st st' : PassSt)
    (h1 : iterScan k st = some st') (h2 : scanStep st' = .fatal)
    (hf : scanMeasure st.todo < fuel) :
    runScanF fuel st = some .abort := by
  induction k generalizing st fuel with
  | zero =>
    cases h1
    cases fuel with
    | zero => omega
    | succ f => simp [runScanF, h2]
  | succ k' ih =>
    rw [iterScan] at h1
    cases hs : scanStep st with
    | halt st1 => rw [hs] at h1; cases h1
    | fatal => rw [hs] at h1; cases h1
    | next st1 =>
      rw [hs] at h1
      have hm := scanStep_next_measure st st1 hs
      rw [runScanF_step st st1 fuel hs hf]
      exact ih fuel st1 h1 (by omega)

/-! ## Further helper lemmas -/

theorem skel_foldReplace (z : Nat) (outs : List Nat) (l : List Node) :
    skel (outs.foldl (fun acc o => replaceUsesList o z acc) l) = skel l := by
  induction outs generalizing l with
  | nil => rfl
  | cons o os ih => simp only [List.foldl_cons, ih, skel_replace]

theorem skel_foldReplacePairs (ps : List (Nat × Nat)) (l : List Node) :
    skel (ps.foldl (fun acc p => replaceUsesList p.1 p.2 acc) l) = skel l := by
  induction ps generalizing l with
  | nil => rfl
  | cons p ps' ih => simp only [List.foldl_cons, ih, skel_replace]

theorem foldReplaceNode_fixed (z : Nat) (outs : List Nat) (n : Node)
    (h : useNode n = []) :
    outs.foldl (fun m o => replaceUsesNode o z m) n = n := by
  induction outs with
  | nil => rfl
  | cons o os ih =>
    simp only [List.foldl_cons]
    rw [replaceUsesNode_id o z n (by rw [h]; exact List.not_mem_nil o), ih]

theorem foldl_mapSet_find_notmem (ivs : List (Nat × Ty)) (acc : SMap) (v : Nat)
    (hv : v ∉ ivs.map Prod.fst) :
    mapFind (ivs.foldl (fun m p => mapSet m p.1 (seedState p.2)) acc) v =
      mapFind acc v := by
  induction ivs generalizing acc with
  | nil => rfl
  | cons p rest ih =>
    simp only [List.map_cons, List.mem_cons, not_or] at hv
    simp only [List.foldl_cons]
    rw [ih _ hv.2, mapFind_set, if_neg (fun h => hv.1 h.symm)]

theorem foldl_mapSet_find (ivs : List (Nat × Ty)) (acc : SMap) (v : Nat) (tp : Ty)
    (hmem : (v, tp) ∈ ivs) (hnd : (ivs.map Prod.fst).Nodup) :
    mapFind (ivs.foldl (fun m p => mapSet m p.1 (seedState p.2)) acc) v =
      some (seedState tp) := by
  induction ivs generalizing acc with
  | nil => cases hmem
  | cons p rest ih =>
    simp only [List.map_cons, List.nodup_cons] at hnd
    rcases List.mem_cons.mp hmem with he | hm
    · cases he
      rw [List.foldl_cons, foldl_mapSet_find_notmem rest _ v hnd.1, mapFind_set,
        if_pos rfl]
    · exact ih _ hm hnd.2

/-!
## Claim C2 — seeding is total and a pure function of the input type
-/

/-- C2: for every graph input value, seeding assigns exactly one
classification, determined purely by the input's type: `Zero` when the type
is a tensor type whose structurally-zero flag is present and true; `Nonzero`
when it is a tensor type with the flag false or absent, or a (non-tensor)
subtype of `Tensor` or of `List[Tensor]`; `Unknown` for any other type. -/
theorem seeding_total_pure (ivs : List (Nat × Ty)) (v : Nat) (tp : Ty)
    (hmem : (v, tp) ∈ ivs) (hnd : (ivs.map Prod.fst).Nodup) :
    mapFind (initSMap ivs) v = some (seedState tp) ∧
    (tp.castTensorType = some (some true) → seedState tp = State.Zero) ∧
    (∀ az, tp.castTensorType = some az → az ≠ some true →
      seedState tp = State.Nonzero) ∧
    (tp.castTensorType = none →
      (tp.subOfTensor = true ∨ tp.subOfTensorList = true) →
      seedState tp = State.Nonzero) ∧
    (tp.castTensorType = none → tp.subOfTensor = false →
      tp.subOfTensorList = false → seedState tp = State.Unknown) := by
  refine ⟨foldl_mapSet_find ivs [] v tp hmem hnd, ?_, ?_, ?_, ?_⟩
  · intro h
    simp [seedState, h]
  · intro az h hne
    simp only [seedState, h]
    cases az with
    | none => simp
    | some flag =>
      cases flag with
      | true => exact absurd rfl hne
      | false => simp
  · intro h hsub
    rcases hsub with hs | hs <;> simp [seedState, h, hs]
  · intro h h1 h2
    simp [seedState, h, h1, h2]

/-- Witness for C2 at a concrete seeded input list. -/
theorem seeding_total_pure_witness :
    mapFind (initSMap [(1, ⟨some (some true), true, false⟩),
                       (2, ⟨none, false, true⟩)]) 2 =
      some (seedState ⟨none, false, true⟩) ∧
    seedState ⟨none, false, true⟩ = State.Nonzero := by
  have h := seeding_total_pure [(1, ⟨some (some true), true, false⟩),
      (2, ⟨none, false, true⟩)] 2 ⟨none, false, true⟩
    (by decide) (by decide)
  exact ⟨h.1, h.2.2.2.1 rfl (Or.inr rfl)⟩

/-!
## The all-zero `gradOf` collapse (shared by claims C3 and C10)
-/

/-- Full description of one collapse step on an all-zero region, plus the
whole-run guarantee that the region's node identity never reappears. -/
theorem gradof_collapse_spec (st : PassSt) (n : Node) (rest : List Node)
    (ht : st.todo = n :: rest) (hk : n.kind = Kind.gradOf)
    (hz : ∀ v ∈ n.ins, mapGetD st.smap v = State.Zero)
    (hofr : ∀ o ∈ n.outs, o < st.fresh) :
    ∃ st' rest',
      scanStep st = .next st' ∧
      st'.todo =
        Node.mk st.fresh Kind.autogradZero [] [st.fresh + 1] [] [] :: rest' ∧
      skel rest' = skel rest ∧
      useListN rest' = (useListN rest).map (redirectTo n.outs (st.fresh + 1)) ∧
      skel st'.done = skel st.done ∧
      useListN st'.done =
        (useListN st.done).map (redirectTo n.outs (st.fresh + 1)) ∧
      st'.gouts = st.gouts.map (redirectTo n.outs (st.fresh + 1)) ∧
      st'.smap = st.smap ∧ st'.fresh = st.fresh + 2 ∧
      (∀ fuel stF, scanMeasure st.todo < fuel →
        runScanF fuel st = some (.ok stF) →
        mentionsList n.nid st.done = false → mentionsList n.nid rest = false →
        n.nid < st.fresh → mentionsList n.nid stF.done = false) := by
  have hzb : n.ins.all (fun v => mapGetD st.smap v == State.Zero) = true :=
    (allZero_iff st.smap n.ins).mpr hz
  have hstep := scanStep_gradof_zero st n rest ht hk hzb
  have hznotin : (st.fresh + 1) ∉ n.outs := by
    intro hmem
    have := hofr _ hmem
    omega
  refine ⟨_, n.outs.foldl (fun acc o => replaceUsesList o (st.fresh + 1) acc) rest,
    hstep, ?_, ?_, ?_, ?_, ?_, ?_, ?_, ?_, ?_⟩
  · rw [foldReplaceAll_eq]
    show n.outs.foldl (fun l o => replaceUsesList o (st.fresh + 1) l)
      (Node.mk st.fresh Kind.autogradZero [] [st.fresh + 1] [] [] :: rest) = _
    rw [foldReplace_cons]
    rw [foldReplaceNode_fixed (st.fresh + 1) n.outs
      (Node.mk st.fresh Kind.autogradZero [] [st.fresh + 1] [] [])
      (by simp [useNode, useListN])]
  · exact skel_foldReplace _ _ _
  · exact foldReplace_useListN _ _ hznotin _
  · rw [foldReplaceAll_eq]
    exact skel_foldReplace _ _ _
  · rw [foldReplaceAll_eq]
    exact foldReplace_useListN _ _ hznotin _
  · rw [foldReplaceAll_eq]
    exact foldSubst_map _ _ hznotin _
  · rw [foldReplaceAll_eq]
  · rw [foldReplaceAll_eq]
  · intro fuel stF hm hrun hd hr hlt
    have hok : stOK n.nid (n.outs.foldl (fun s o => replaceAll o (st.fresh + 1) s)
        { st with
          todo := Node.mk st.fresh Kind.autogradZero [] [st.fresh + 1] [] [] :: rest,
          fresh := st.fresh + 2 }) := by
      rw [foldReplaceAll_eq]
      refine ⟨?_, ?_, ?_⟩
      · rw [mentionsList_foldReplace]
        exact hd
      · rw [mentionsList_foldReplace]
        show mentionsList n.nid
          (Node.mk st.fresh Kind.autogradZero [] [st.fresh + 1] [] [] :: rest) = false
        rw [mentionsList_cons]
        have h1 : mentionsNode n.nid
            (Node.mk st.fresh Kind.autogradZero [] [st.fresh + 1] [] []) = false := by
          simp [mentionsNode, mentionsList]
          omega
        rw [h1, hr]
        rfl
      · show n.nid < st.fresh + 2
        omega
    rw [runScanF_step st _ fuel hstep hm] at hrun
    exact runScanF_stOK fuel n.nid _ stF hrun hok

/-!
## Claim C3 — collapse of an all-zero conditional region
-/

/-- C3: when every input of a `gradOf` region is classified `Zero`, the step
inserts exactly one new node — a zero literal with the next fresh identity,
sitting exactly where the region was and visited next by the cursor —
redirects every use of every region output (in the scanned part, the
unscanned part and the graph outputs) to that single new zero value, leaves
everything else structurally unchanged, and deletes the region node with its
nested block; on any completed run from this state the region's original
node identity never reappears. -/
theorem zero_region_collapse (st : PassSt) (n : Node) (rest : List Node)
    (ht : st.todo = n :: rest) (hk : n.kind = Kind.gradOf)
    (hz : ∀ v ∈ n.ins, mapGetD st.smap v = State.Zero)
    (hofr : ∀ o ∈ n.outs, o < st.fresh) :
    ∃ st' rest',
      scanStep st = .next st' ∧
      st'.todo =
        Node.mk st.fresh Kind.autogradZero [] [st.fresh + 1] [] [] :: rest' ∧
      skel rest' = skel rest ∧
      useListN rest' = (useListN rest).map (redirectTo n.outs (st.fresh + 1)) ∧
      skel st'.done = skel st.done ∧
      useListN st'.done =
        (useListN st.done).map (redirectTo n.outs (st.fresh + 1)) ∧
      st'.gouts = st.gouts.map (redirectTo n.outs (st.fresh + 1)) ∧
      st'.smap = st.smap ∧ st'.fresh = st.fresh + 2 ∧
      (∀ fuel stF, scanMeasure st.todo < fuel →
        runScanF fuel st = some (.ok stF) →
        mentionsList n.nid st.done = false → mentionsList n.nid rest = false →
        n.nid < st.fresh → mentionsList n.nid stF.done = false) :=
  gradof_collapse_spec st n rest ht hk hz hofr

/-- Witness for C3: the collapse actually fires on `gC3`, and the finished
pass contains no node with the region's identity 10. -/
theorem zero_region_collapse_witness :
    (∃ st' rest',
      scanStep (initSt gC3) = .next st' ∧
      st'.todo = Node.mk (initSt gC3).fresh Kind.autogradZero []
        [(initSt gC3).fresh + 1] [] [] :: rest') ∧
    (∀ stF, runScanF (scanMeasure (initSt gC3).todo + 1) (initSt gC3) =
        some (.ok stF) → mentionsList (nC3.nid) stF.done = false) := by
  obtain ⟨st', rest', h1, h2, -, -, -, -, -, -, -, hrun⟩ :=
    zero_region_collapse (initSt gC3) nC3 [] rfl rfl
      (by decide) (by decide)
  exact ⟨⟨st', rest', h1, h2⟩,
    fun stF h => hrun _ stF (by decide) h (by decide) (by decide) (by decide)⟩

/-!
## Claim C10 — a region with no inputs counts as all-zero
-/

/-- C10: a `gradOf` region with an empty input list satisfies the all-zero
test vacuously (`std::all_of` over an empty range), so the step takes the
zero-literal replacement path — it neither splices the nested block nor
triggers the `Unknown`-input assertion. -/
theorem empty_region_collapses (st : PassSt) (n : Node) (rest : List Node)
    (ht : st.todo = n :: rest) (hk : n.kind = Kind.gradOf)
    (hins : n.ins = []) (hofr : ∀ o ∈ n.outs, o < st.fresh) :
    scanStep st ≠ .fatal ∧
    ∃ st' rest',
      scanStep st = .next st' ∧
      st'.todo =
        Node.mk st.fresh Kind.autogradZero [] [st.fresh + 1] [] [] :: rest' ∧
      skel rest' = skel rest ∧
      skel st'.done = skel st.done ∧
      st'.smap = st.smap ∧ st'.fresh = st.fresh + 2 := by
  have hz : ∀ v ∈ n.ins, mapGetD st.smap v = State.Zero := by
    rw [hins]
    intro v hv
    cases hv
  obtain ⟨st', rest', h1, h2, h3, -, h5, -, -, h8, h9, -⟩ :=
    gradof_collapse_spec st n rest ht hk hz hofr
  refine ⟨?_, st', rest', h1, h2, h3, h5, h8, h9⟩
  rw [h1]
  intro hcon
  cases hcon

/-- Witness for C10 on the concrete empty-input region `gC10`. -/
theorem empty_region_collapses_witness :
    scanStep (initSt gC10) ≠ .fatal ∧
    ∃ st' rest',
      scanStep (initSt gC10) = .next st' ∧
      st'.todo = Node.mk (initSt gC10).fresh Kind.autogradZero []
        [(initSt gC10).fresh + 1] [] [] :: rest' := by
  obtain ⟨hnf, st', rest', h1, h2, -, -, -, -⟩ :=
    empty_region_collapses (initSt gC10) nC10 [] rfl rfl rfl (by decide)
  exact ⟨hnf, st', rest', h1, h2⟩

/-!
## Claim C4 — splice of a live conditional region
-/

/-- C4: for a `gradOf` region with at least one non-`Zero` input and no
`Unknown` input, the step moves every node of the nested block into the
enclosing block immediately before the region's position, in their original
relative order (the scanned part's skeleton becomes `old ++ body`), redirects
every use of the i-th region output to the i-th designated nested-block
output (the `redirectPairs` of `outs.zip bouts`), deletes the region node
(it is on neither side afterwards, and on any completed run its identity
never reappears), and allocates nothing. -/
theorem live_region_splice (st : PassSt) (n : Node) (rest : List Node)
    (ht : st.todo = n :: rest) (hk : n.kind = Kind.gradOf)
    (hnz : ¬ ∀ v ∈ n.ins, mapGetD st.smap v = State.Zero)
    (hnu : ∀ v ∈ n.ins, mapGetD st.smap v ≠ State.Unknown)
    (hbo : ∀ p ∈ n.outs.zip n.bouts, p.2 ∉ (n.outs.zip n.bouts).map Prod.fst) :
    ∃ st',
      scanStep st = .next st' ∧
      skel st'.done = skel st.done ++ skel n.body ∧
      useListN st'.done =
        (useListN (st.done ++ n.body)).map (redirectPairs (n.outs.zip n.bouts)) ∧
      skel st'.todo = skel rest ∧
      useListN st'.todo =
        (useListN rest).map (redirectPairs (n.outs.zip n.bouts)) ∧
      st'.gouts = st.gouts.map (redirectPairs (n.outs.zip n.bouts)) ∧
      st'.smap = st.smap ∧ st'.fresh = st.fresh ∧
      (∀ fuel stF, scanMeasure st.todo < fuel →
        runScanF fuel st = some (.ok stF) →
        mentionsList n.nid st.done = false → mentionsList n.nid rest = false →
        mentionsList n.nid n.body = false →
        n.nid < st.fresh → mentionsList n.nid stF.done = false) := by
  have hzb : n.ins.all (fun v => mapGetD st.smap v == State.Zero) = false := by
    rw [← Bool.not_eq_true]
    exact fun h => hnz ((allZero_iff _ _).mp h)
  have hub : n.ins.all (fun v => mapGetD st.smap v != State.Unknown) = true := by
    rw [← Bool.not_eq_false]
    intro h
    obtain ⟨v, hv, he⟩ := (allNotUnknown_false_iff _ _).mp h
    exact hnu v hv he
  have hstep := scanStep_gradof_splice st n rest ht hk hzb hub
  refine ⟨_, hstep, ?_, ?_, ?_, ?_, ?_, ?_, ?_, ?_⟩
  · rw [foldReplaceAllPairs_eq]
    show skel ((n.outs.zip n.bouts).foldl
      (fun l p => replaceUsesList p.1 p.2 l) (st.done ++ n.body)) = _
    rw [skel_foldReplacePairs, skel_append]
  · rw [foldReplaceAllPairs_eq]
    exact foldReplacePairs_useListN _ hbo _
  · rw [foldReplaceAllPairs_eq]
    exact skel_foldReplacePairs _ _
  · rw [foldReplaceAllPairs_eq]
    exact foldReplacePairs_useListN _ hbo _
  · rw [foldReplaceAllPairs_eq]
    exact foldSubstPairs_map _ hbo _
  · rw [foldReplaceAllPairs_eq]
  · rw [foldReplaceAllPairs_eq]
  · intro fuel stF hm hrun hd hr hbody hlt
    have hok : stOK n.nid ((n.outs.zip n.bouts).foldl
        (fun s p => replaceAll p.1 p.2 s)
        { st with done := st.done ++ n.body, todo := rest }) := by
      rw [foldReplaceAllPairs_eq]
      refine ⟨?_, ?_, ?_⟩
      · rw [mentionsList_foldReplacePairs, mentionsList_append, hd, hbody]
        rfl
      · rw [mentionsList_foldReplacePairs]
        exact hr
      · exact hlt
    rw [runScanF_step st _ fuel hstep hm] at hrun
    exact runScanF_stOK fuel n.nid _ stF hrun hok

/-- Witness for C4: the splice fires on `gC4`; the body's opaque node moves
into the parent block and the region's identity 10 is gone for good. -/
theorem live_region_splice_witness :
    (∃ st',
      scanStep (initSt gC4) = .next st' ∧
      skel st'.done = skel (initSt gC4).done ++ skel nC4.body ∧
      st'.gouts = (initSt gC4).gouts.map
        (redirectPairs (nC4.outs.zip nC4.bouts))) ∧
    (∀ stF, runScanF (scanMeasure (initSt gC4).todo + 1) (initSt gC4) =
        some (.ok stF) → mentionsList nC4.nid stF.done = false) := by
  obtain ⟨st', h1, h2, -, -, -, h6, -, -, hrun⟩ :=
    live_region_splice (initSt gC4) nC4 []
      rfl rfl (by decide) (by decide) (by decide)
  exact ⟨⟨st', h1, h2, h6⟩,
    fun stF h => hrun _ stF (by decide) h (by decide) (by decide) (by decide)
      (by decide)⟩

/-!
## Claim C6 — addition with a `Zero` operand collapses to the other operand
-/

/-- C6: for a guarded addition `add(a, b)`: if `a` is classified `Zero`,
every use of the node's output is redirected to the value `b` itself (the
very same identity — `substV out b` — with no new node and no fresh
allocation) and the node is deleted; symmetrically, when `a` is not `Zero`
and `b` is `Zero`, uses go to `a` itself and the node is deleted. The
classification map is untouched in both cases. -/
theorem add_zero_identity (st : PassSt) (n : Node) (rest : List Node)
    (ht : st.todo = n :: rest) (hk : n.kind = Kind.autogradAdd) :
    (mapGetD st.smap (n.ins.getD 0 0) = State.Zero →
      ∃ st', scanStep st = .next st' ∧
        skel st'.done = skel st.done ∧
        useListN st'.done =
          (useListN st.done).map (substV (n.outs.getD 0 0) (n.ins.getD 1 0)) ∧
        skel st'.todo = skel rest ∧
        useListN st'.todo =
          (useListN rest).map (substV (n.outs.getD 0 0) (n.ins.getD 1 0)) ∧
        st'.gouts = st.gouts.map (substV (n.outs.getD 0 0) (n.ins.getD 1 0)) ∧
        st'.smap = st.smap ∧ st'.fresh = st.fresh) ∧
    (mapGetD st.smap (n.ins.getD 0 0) ≠ State.Zero →
     mapGetD st.smap (n.ins.getD 1 0) = State.Zero →
      ∃ st', scanStep st = .next st' ∧
        skel st'.done = skel st.done ∧
        useListN st'.done =
          (useListN st.done).map (substV (n.outs.getD 0 0) (n.ins.getD 0 0)) ∧
        skel st'.todo = skel rest ∧
        useListN st'.todo =
          (useListN rest).map (substV (n.outs.getD 0 0) (n.ins.getD 0 0)) ∧
        st'.gouts = st.gouts.map (substV (n.outs.getD 0 0) (n.ins.getD 0 0)) ∧
        st'.smap = st.smap ∧ st'.fresh = st.fresh) := by
  constructor
  · intro ha
    refine ⟨_, scanStep_add_zeroA st n rest ht hk ha, ?_, ?_, ?_, ?_, ?_, rfl, rfl⟩
    · exact skel_replace _ _ _
    · exact useListN_replace _ _ _
    · exact skel_replace _ _ _
    · exact useListN_replace _ _ _
    · rfl
  · intro ha hb
    refine ⟨_, scanStep_add_zeroB st n rest ht hk ha hb, ?_, ?_, ?_, ?_, ?_, rfl, rfl⟩
    · exact skel_replace _ _ _
    · exact useListN_replace _ _ _
    · exact skel_replace _ _ _
    · exact useListN_replace _ _ _
    · rfl

/-- Witness for C6 covering both symmetric cases on `gC6` and `gC6b`. -/
theorem add_zero_identity_witness :
    (∃ st', scanStep (initSt gC6) = .next st' ∧
      st'.gouts = (initSt gC6).gouts.map (substV 11 2) ∧ st'.fresh = (initSt gC6).fresh) ∧
    (∃ st', scanStep (initSt gC6b) = .next st' ∧
      st'.gouts = (initSt gC6b).gouts.map (substV 11 1) ∧ st'.fresh = (initSt gC6b).fresh) := by
  constructor
  · obtain ⟨st', h1, -, -, -, -, h6, -, h8⟩ :=
      (add_zero_identity (initSt gC6)
        (Node.mk 10 Kind.autogradAdd [1, 2] [11] [] []) [] rfl rfl).1 (by decide)
    exact ⟨st', h1, h6, h8⟩
  · obtain ⟨st', h1, -, -, -, -, h6, -, h8⟩ :=
      (add_zero_identity (initSt gC6b)
        (Node.mk 10 Kind.autogradAdd [1, 2] [11] [] []) [] rfl rfl).2
        (by decide) (by decide)
    exact ⟨st', h1, h6, h8⟩

/-!
## Claim C7 — addition of two `Nonzero` operands becomes one plain add
-/

/-- C7: for a guarded addition whose operands are both classified `Nonzero`,
the step synthesizes exactly one new node — a plain (`aten::add`) addition of
`a` and `b` with a fresh identity and a fresh output value, placed at the
cursor's position in the block — classifies that new output `Nonzero`,
redirects every use of the old output to it, leaves every other
classification unchanged, and deletes the old guarded node (on any completed
run its identity never reappears). -/
theorem add_both_nonzero_promotion (st : PassSt) (n : Node) (rest : List Node)
    (ht : st.todo = n :: rest) (hk : n.kind = Kind.autogradAdd)
    (ha : mapGetD st.smap (n.ins.getD 0 0) = State.Nonzero)
    (hb : mapGetD st.smap (n.ins.getD 1 0) = State.Nonzero)
    (hao : n.ins.getD 0 0 ≠ n.outs.getD 0 0)
    (hbo : n.ins.getD 1 0 ≠ n.outs.getD 0 0) :
    ∃ st' done₀,
      scanStep st = .next st' ∧
      st'.done = done₀ ++
        [Node.mk st.fresh Kind.atenAdd [n.ins.getD 0 0, n.ins.getD 1 0]
          [st.fresh + 1] [] []] ∧
      skel done₀ = skel st.done ∧
      useListN done₀ =
        (useListN st.done).map (substV (n.outs.getD 0 0) (st.fresh + 1)) ∧
      skel st'.todo = skel rest ∧
      useListN st'.todo =
        (useListN rest).map (substV (n.outs.getD 0 0) (st.fresh + 1)) ∧
      st'.gouts = st.gouts.map (substV (n.outs.getD 0 0) (st.fresh + 1)) ∧
      mapGetD st'.smap (st.fresh + 1) = State.Nonzero ∧
      (∀ v, v ≠ st.fresh + 1 → mapGetD st'.smap v = mapGetD st.smap v) ∧
      st'.fresh = st.fresh + 2 ∧
      (∀ fuel stF, scanMeasure st.todo < fuel →
        runScanF fuel st = some (.ok stF) →
        mentionsList n.nid st.done = false → mentionsList n.nid rest = false →
        n.nid < st.fresh → mentionsList n.nid stF.done = false) := by
  have hstep := scanStep_add_bothNZ st n rest ht hk ha hb
  rw [synthesizePlainAdd_def] at hstep
  have hnewfix : replaceUsesNode (n.outs.getD 0 0) (st.fresh + 1)
      (Node.mk st.fresh Kind.atenAdd [n.ins.getD 0 0, n.ins.getD 1 0]
        [st.fresh + 1] [] []) =
      Node.mk st.fresh Kind.atenAdd [n.ins.getD 0 0, n.ins.getD 1 0]
        [st.fresh + 1] [] [] := by
    apply replaceUsesNode_id
    simp only [useNode, useListN, List.append_nil, List.nil_append, List.mem_cons,
      List.mem_singleton, not_or]
    exact ⟨fun h => hao h.symm, fun h => hbo h.symm, by simp⟩
  refine ⟨_, replaceUsesList (n.outs.getD 0 0) (st.fresh + 1) st.done,
    hstep, ?_, ?_, ?_, ?_, ?_, ?_, ?_, ?_, ?_, ?_⟩
  · show replaceUsesList (n.outs.getD 0 0) (st.fresh + 1)
      (st.done ++ [Node.mk st.fresh Kind.atenAdd
        [n.ins.getD 0 0, n.ins.getD 1 0] [st.fresh + 1] [] []]) = _
    rw [replaceUsesList_append]
    simp only [replaceUsesList, hnewfix]
  · exact skel_replace _ _ _
  · exact useListN_replace _ _ _
  · exact skel_replace _ _ _
  · exact useListN_replace _ _ _
  · rfl
  · show mapGetD (mapSet st.smap (st.fresh + 1) State.Nonzero) (st.fresh + 1) = _
    rw [mapGetD_set, if_pos rfl]
  · intro v hv
    show mapGetD (mapSet st.smap (st.fresh + 1) State.Nonzero) v = _
    rw [mapGetD_set, if_neg (fun h => hv h.symm)]
  · rfl
  · intro fuel stF hm hrun hd hr hlt
    have hok : stOK n.nid (replaceAll (n.outs.getD 0 0) (st.fresh + 1)
        { st with
          done := st.done ++ [Node.mk st.fresh Kind.atenAdd
            [n.ins.getD 0 0, n.ins.getD 1 0] [st.fresh + 1] [] []],
          todo := rest,
          smap := mapSet st.smap (st.fresh + 1) State.Nonzero,
          fresh := st.fresh + 2 }) := by
      refine ⟨?_, ?_, ?_⟩
      · show mentionsList n.nid (replaceUsesList _ _ (st.done ++ _)) = false
        rw [mentionsList_replace, mentionsList_append, hd]
        have : mentionsList n.nid [Node.mk st.fresh Kind.atenAdd
            [n.ins.getD 0 0, n.ins.getD 1 0] [st.fresh + 1] [] []] = false := by
          simp [mentionsList, mentionsNode]
          omega
        rw [this]
        rfl
      · show mentionsList n.nid (replaceUsesList _ _ rest) = false
        rw [mentionsList_replace]
        exact hr
      · show n.nid < st.fresh + 2
        omega
    rw [runScanF_step st _ fuel hstep hm] at hrun
    exact runScanF_stOK fuel n.nid _ stF hrun hok

/-- Witness for C7 on `gC7`. -/
theorem add_both_nonzero_promotion_witness :
    ∃ st' done₀,
      scanStep (initSt gC7) = .next st' ∧
      st'.done = done₀ ++
        [Node.mk (initSt gC7).fresh Kind.atenAdd [1, 2]
          [(initSt gC7).fresh + 1] [] []] ∧
      mapGetD st'.smap ((initSt gC7).fresh + 1) = State.Nonzero := by
  obtain ⟨st', done₀, h1, h2, -, -, -, -, -, h8, -, -, -⟩ :=
    add_both_nonzero_promotion (initSt gC7)
      (Node.mk 10 Kind.autogradAdd [1, 2] [11] [] []) [] rfl rfl
      (by decide) (by decide) (by decide) (by decide)
  exact ⟨st', done₀, h1, h2, h8⟩

/-!
## Claim C8 — a conservative addition is left untouched
-/

/-- C8: for a guarded addition where neither operand is classified `Zero`
and the operands are not both `Nonzero` (with three states, at least one is
`Unknown`), the step leaves the node byte-for-byte in place — it merely
moves past it — creates and deletes nothing, redirects no use, and
classifies the node's output `Unknown`, changing no other classification. -/
theorem add_conservative_leave (st : PassSt) (n : Node) (rest : List Node)
    (ht : st.todo = n :: rest) (hk : n.kind = Kind.autogradAdd)
    (ha : mapGetD st.smap (n.ins.getD 0 0) ≠ State.Zero)
    (hb : mapGetD st.smap (n.ins.getD 1 0) ≠ State.Zero)
    (hnn : ¬(mapGetD st.smap (n.ins.getD 0 0) = State.Nonzero ∧
             mapGetD st.smap (n.ins.getD 1 0) = State.Nonzero)) :
    ∃ st',
      scanStep st = .next st' ∧
      st'.done = st.done ++ [n] ∧
      st'.todo = rest ∧
      st'.gouts = st.gouts ∧
      st'.fresh = st.fresh ∧
      mapGetD st'.smap (n.outs.getD 0 0) = State.Unknown ∧
      (∀ v, v ≠ n.outs.getD 0 0 → mapGetD st'.smap v = mapGetD st.smap v) := by
  refine ⟨_, scanStep_add_leave st n rest ht hk ha hb hnn,
    rfl, rfl, rfl, rfl, ?_, ?_⟩
  · show mapGetD (mapSet st.smap (n.outs.getD 0 0) State.Unknown) _ = _
    rw [mapGetD_set, if_pos rfl]
  · intro v hv
    show mapGetD (mapSet st.smap (n.outs.getD 0 0) State.Unknown) v = _
    rw [mapGetD_set, if_neg (fun h => hv h.symm)]

/-- Witness for C8 on `gC8` (`Unknown + Nonzero`). -/
theorem add_conservative_leave_witness :
    ∃ st',
      scanStep (initSt gC8) = .next st' ∧
      st'.done = (initSt gC8).done ++
        [Node.mk 10 Kind.autogradAdd [1, 2] [11] [] []] ∧
      mapGetD st'.smap 11 = State.Unknown := by
  obtain ⟨st', h1, h2, -, -, -, h6, -⟩ :=
    add_conservative_leave (initSt gC8)
      (Node.mk 10 Kind.autogradAdd [1, 2] [11] [] []) [] rfl rfl
      (by decide) (by decide) (by decide)
  exact ⟨st', h1, h2, h6⟩

/-!
## Claim C5 — exactly one failure condition
-/

/-- C5: a scan step is fatal (the `AT_ASSERT`) precisely when the node under
the cursor is a `gradOf` region, not all of its inputs are classified `Zero`,
and some input is classified `Unknown`; no other combination of
classifications or node kinds aborts. At the whole-pass level the pass
returns abnormally precisely when the scan reaches such a state; the fatal
step returns no mutated state at all (the assertion loop precedes the
splice in the source), so no rewrite of that region ever happens. -/
theorem unique_fatal_condition :
    (∀ st : PassSt, scanStep st = .fatal ↔
      ∃ n rest, st.todo = n :: rest ∧ n.kind = Kind.gradOf ∧
        ¬(∀ v ∈ n.ins, mapGetD st.smap v = State.Zero) ∧
        ∃ v ∈ n.ins, mapGetD st.smap v = State.Unknown) ∧
    (∀ g : Graph, specializeAutogradZero g = none ↔
      ∃ k st', iterScan k (initSt g) = some st' ∧ scanStep st' = .fatal) := by
  constructor
  · intro st
    constructor
    · exact scanStep_fatal_inv st
    · rintro ⟨n, rest, ht, hk, hnz, v, hv, hu⟩
      have hzb : n.ins.all (fun w => mapGetD st.smap w == State.Zero) = false := by
        rw [← Bool.not_eq_true]
        exact fun h => hnz ((allZero_iff _ _).mp h)
      have hub : n.ins.all (fun w => mapGetD st.smap w != State.Unknown) = false :=
        (allNotUnknown_false_iff _ _).mpr ⟨v, hv, hu⟩
      exact scanStep_gradof_fatal st n rest ht hk hzb hub
  · intro g
    constructor
    · intro h
      rw [specializeAutogradZero] at h
      cases hrun : runScanF (scanMeasure g.nodes + 1) (initSt g) with
      | none =>
        exfalso
        have := runScanF_isSome (scanMeasure g.nodes + 1) (initSt g)
          (by rw [show (initSt g).todo = g.nodes from rfl]; omega)
        rw [hrun] at this
        cases this
      | some r =>
        cases r with
        | ok stF => rw [hrun] at h; cases h
        | abort => exact runScanF_abort_inv _ _ hrun
    · rintro ⟨k, st', h1, h2⟩
      have habort : runScanF (scanMeasure g.nodes + 1) (initSt g) = some .abort :=
        iterScan_abort (scanMeasure g.nodes + 1) k (initSt g) st' h1 h2
          (by rw [show (initSt g).todo = g.nodes from rfl]; omega)
      rw [specializeAutogradZero, habort]

/-- Witness for C5: on `gC5` the mixed-classification region aborts the
pass. -/
theorem unique_fatal_condition_witness :
    specializeAutogradZero gC5 = none ∧ scanStep (initSt gC5) = .fatal := by
  have hfatal : scanStep (initSt gC5) = .fatal :=
    (unique_fatal_condition.1 (initSt gC5)).mpr
      ⟨Node.mk 10 Kind.gradOf [1, 2] [11]
          [Node.mk 12 (Kind.other 0) [1] [13] [] []] [13], [],
        rfl, rfl, by decide, 1, by decide, by decide⟩
  exact ⟨(unique_fatal_condition.2 gC5).mpr ⟨0, initSt gC5, rfl, hfatal⟩, hfatal⟩

/-! ### Small lemmas for the idempotence development -/

theorem replaceUsesList_eq_map (o r : Nat) (l : List Node) :
    replaceUsesList o r l = l.map (replaceUsesNode o r) := by
  induction l with
  | nil => rfl
  | cons n ns ih => simp [replaceUsesList, ih]

theorem ins_replace (o r : Nat) (n : Node) :
    (replaceUsesNode o r n).ins = n.ins.map (substV o r) := by
  cases n; rfl

theorem listMax_ge (x : Nat) (xs : List Nat) (h : x ∈ xs) : x ≤ listMax xs := by
  induction xs with
  | nil => cases h
  | cons y ys ih =>
    rcases List.mem_cons.mp h with he | hm
    · simp [listMax, he]
    · simp only [listMax]
      exact le_max_of_le_right (ih hm)

theorem nodeMaxId_mem_le (m : Node) (l : List Node) (h : m ∈ l) :
    nodeMaxId m ≤ nodesMaxId l := by
  induction l with
  | nil => cases h
  | cons n ns ih =>
    rcases List.mem_cons.mp h with he | hm
    · simp [nodesMaxId, he]
    · simp only [nodesMaxId]
      exact le_max_of_le_right (ih hm)

theorem outs_le_nodeMaxId (x : Nat) (m : Node) (h : x ∈ m.outs) :
    x ≤ nodeMaxId m := by
  cases m with
  | mk i k is os b bo =>
    simp only [Node.outs] at h
    simp only [nodeMaxId]
    have := listMax_ge x os h
    omega

theorem outsBelow_init (g : Graph) : outsBelow g.nodes (freshStart g) := by
  intro m hm x hx
  have h1 := outs_le_nodeMaxId x m hx
  have h2 := nodeMaxId_mem_le m g.nodes hm
  simp only [freshStart]
  omega

theorem outsBelow_mono (l : List Node) (f f' : Nat) (h : outsBelow l f)
    (hle : f ≤ f') : outsBelow l f' :=
  fun m hm x hx => lt_of_lt_of_le (h m hm x hx) hle

theorem outsBelow_tail (n : Node) (l : List Node) (f : Nat)
    (h : outsBelow (n :: l) f) : outsBelow l f :=
  fun m hm => h m (List.mem_cons_of_mem n hm)

theorem outsBelow_replace (o r : Nat) (l : List Node) (f : Nat)
    (h : outsBelow l f) : outsBelow (replaceUsesList o r l) f := by
  intro m hm x hx
  rw [replaceUsesList_eq_map] at hm
  obtain ⟨m0, hm0, he⟩ := List.mem_map.mp hm
  rw [← he, outs_replace] at hx
  exact h m0 hm0 x hx

theorem noGradOfB_cons (n : Node) (l : List Node) :
    noGradOfB (n :: l) = ((n.kind != Kind.gradOf) && noGradOfB l) := by
  simp [noGradOfB]

theorem noGradOfB_replace (o r : Nat) (l : List Node) :
    noGradOfB (replaceUsesList o r l) = noGradOfB l := by
  induction l with
  | nil => rfl
  | cons n ns ih =>
    simp only [replaceUsesList, noGradOfB_cons, ih, kind_replace]

theorem addArityOk_cons (n : Node) (l : List Node) :
    addArityOk (n :: l) =
      ((n.kind != Kind.autogradAdd ||
        (n.ins.length == 2 && n.outs.length == 1)) && addArityOk l) := by
  simp [addArityOk]

theorem addArityOk_replace (o r : Nat) (l : List Node) :
    addArityOk (replaceUsesList o r l) = addArityOk l := by
  induction l with
  | nil => rfl
  | cons n ns ih =>
    simp only [replaceUsesList, addArityOk_cons, ih, kind_replace, ins_replace,
      outs_replace, List.length_map]

theorem getD0_mem (l : List Nat) (h : 0 < l.length) : l.getD 0 0 ∈ l := by
  cases l with
  | nil => simp at h
  | cons x xs => simp [List.getD]

theorem getD1_mem (l : List Nat) (h : 1 < l.length) : l.getD 1 0 ∈ l := by
  cases l with
  | nil => simp at h
  | cons x xs =>
    cases xs with
    | nil => simp at h
    | cons y ys => simp [List.getD]

theorem wfChainB_cons_iff (u : List Nat) (n : Node) (l : List Node) :
    wfChainB u (n :: l) = true ↔
      (∀ x ∈ n.outs, x ∉ u) ∧ wfChainB (u ++ useNode n) l = true := by
  simp [wfChainB, List.all_eq_true]

theorem wfChainB_outs_not_used (u : List Nat) (l : List Node)
    (h : wfChainB u l = true) : ∀ m ∈ l, ∀ x ∈ m.outs, x ∉ u := by
  induction l generalizing u with
  | nil => intro m hm; cases hm
  | cons n ns ih =>
    obtain ⟨h1, h2⟩ := (wfChainB_cons_iff u n ns).mp h
    intro m hm x hx
    rcases List.mem_cons.mp hm with he | hm'
    · exact (he ▸ h1) x hx
    · intro hu
      exact ih (u ++ useNode n) h2 m hm' x hx (List.mem_append_left _ hu)

theorem wfChainB_relax (u u' : List Nat) (r : Nat) (l : List Node)
    (hsub : ∀ x ∈ u', x ∈ u ∨ x = r)
    (hrout : ∀ m ∈ l, ∀ x ∈ m.outs, x ≠ r)
    (hW : wfChainB u l = true) : wfChainB u' l = true := by
  induction l generalizing u u' with
  | nil => rfl
  | cons n ns ih =>
    obtain ⟨h1, h2⟩ := (wfChainB_cons_iff u n ns).mp hW
    refine (wfChainB_cons_iff u' n ns).mpr ⟨?_, ?_⟩
    · intro x hx hxu
      rcases hsub x hxu with hin | he
      · exact h1 x hx hin
      · exact hrout n (List.mem_cons_self n ns) x hx he
    · refine ih (u ++ useNode n) (u' ++ useNode n) ?_
        (fun m hm => hrout m (List.mem_cons_of_mem n hm)) h2
      intro x hx
      rcases List.mem_append.mp hx with h | h
      · rcases hsub x h with h' | h'
        · exact Or.inl (List.mem_append_left _ h')
        · exact Or.inr h'
      · exact Or.inl (List.mem_append_right _ h)

theorem wfChainB_subst (u : List Nat) (o r : Nat) (l : List Node)
    (hW : wfChainB u l = true)
    (hrout : ∀ m ∈ l, ∀ x ∈ m.outs, x ≠ r) :
    wfChainB u (replaceUsesList o r l) = true := by
  induction l generalizing u with
  | nil => rfl
  | cons n ns ih =>
    obtain ⟨h1, h2⟩ := (wfChainB_cons_iff u n ns).mp hW
    show wfChainB u (replaceUsesNode o r n :: replaceUsesList o r ns) = true
    refine (wfChainB_cons_iff _ _ _).mpr ⟨?_, ?_⟩
    · rw [outs_replace]
      exact h1
    · have hih := ih (u ++ useNode n) h2 (fun m hm => hrout m (List.mem_cons_of_mem n hm))
      refine wfChainB_relax (u ++ useNode n) _ r _ ?_ ?_ hih
      · intro x hx
        rw [useNode_replace] at hx
        rcases List.mem_append.mp hx with h | h
        · exact Or.inl (List.mem_append_left _ h)
        · obtain ⟨y, hy, he⟩ := List.mem_map.mp h
          by_cases hyo : y = o
          · right
            rw [← he, hyo, substV, if_pos rfl]
          · left
            rw [← he, substV, if_neg hyo]
            exact List.mem_append_right _ hy
      · intro m hm x hx
        rw [replaceUsesList_eq_map] at hm
        obtain ⟨m0, hm0, he⟩ := List.mem_map.mp hm
        rw [← he, outs_replace] at hx
        exact hrout m0 (List.mem_cons_of_mem n hm0) x hx

theorem clsFold_append (m : SMap) (l₁ l₂ : List Node) :
    clsFold m (l₁ ++ l₂) = clsFold (clsFold m l₁) l₂ := by
  induction l₁ generalizing m with
  | nil => rfl
  | cons n ns ih =>
    show clsFold (clsNode m n) (ns ++ l₂) = clsFold (clsFold (clsNode m n) ns) l₂
    exact ih (clsNode m n)

theorem StableFrom_append (m : SMap) (l₁ l₂ : List Node) :
    StableFrom m (l₁ ++ l₂) ↔
      StableFrom m l₁ ∧ StableFrom (clsFold m l₁) l₂ := by
  induction l₁ generalizing m with
  | nil => simp [StableFrom, clsFold]
  | cons n ns ih =>
    rw [List.cons_append]
    simp only [StableFrom]
    rw [ih (clsNode m n)]
    rw [show clsFold m (n :: ns) = clsFold (clsNode m n) ns from rfl]
    tauto

theorem SimCls_refl (s : SMap) : SimCls s s := fun _ => ⟨id, id⟩

theorem SimCls_set (s₁ s₂ : SMap) (v : Nat) (x : State) (h : SimCls s₁ s₂) :
    SimCls (mapSet s₁ v x) (mapSet s₂ v x) := by
  intro w
  rw [mapGetD_set, mapGetD_set]
  by_cases hv : v = w
  · simp [hv]
  · simp only [if_neg hv]
    exact h w

theorem SimCls_set_nzu (s₁ s₂ : SMap) (v : Nat) (h : SimCls s₁ s₂) :
    SimCls (mapSet s₁ v State.Nonzero) (mapSet s₂ v State.Unknown) := by
  intro w
  rw [mapGetD_set, mapGetD_set]
  by_cases hv : v = w
  · simp [hv]
  · simp only [if_neg hv]
    exact h w

theorem SimCls_fold_unknown (outs : List Nat) (s₁ s₂ : SMap) (h : SimCls s₁ s₂) :
    SimCls (outs.foldl (fun acc o => mapSet acc o State.Unknown) s₁)
           (outs.foldl (fun acc o => mapSet acc o State.Unknown) s₂) := by
  induction outs generalizing s₁ s₂ with
  | nil => exact h
  | cons o os ih => exact ih _ _ (SimCls_set s₁ s₂ o State.Unknown h)

/-- A scan over a region-free, stable node list performs no mutation: it
only moves the cursor and fills the classification map (`clsFold`). -/
theorem runScanF_succ_next (f : Nat) (st st' : PassSt)
    (h : scanStep st = .next st') :
    runScanF (f + 1) st = runScanF f st' := by
  simp only [runScanF, h]

theorem scan_noop (fuel : Nat) (st : PassSt)
    (hng : noGradOfB st.todo = true)
    (hs : StableFrom st.smap st.todo)
    (hf : scanMeasure st.todo < fuel) :
    runScanF fuel st = some (.ok
      { done := st.done ++ st.todo, todo := [], gouts := st.gouts,
        smap := clsFold st.smap st.todo, fresh := st.fresh }) := by
  induction fuel generalizing st with
  | zero => omega
  | succ f ih =>
    cases ht : st.todo with
    | nil =>
      rw [runScanF, scanStep_halt st ht]
      cases st with
      | mk d t g s fr =>
        simp only at ht
        subst ht
        simp [clsFold]
    | cons n rest =>
      rw [ht] at hng hs hf
      rw [noGradOfB_cons, Bool.and_eq_true] at hng
      obtain ⟨hc, hrest⟩ := hs
      cases hk : n.kind with
      | gradOf => rw [hk] at hng; simp at hng
      | autogradAdd =>
        obtain ⟨ha, hb, hnn⟩ := hc hk
        have hstep := scanStep_add_leave st n rest ht hk ha hb hnn
        have hm := scanStep_next_measure st _ hstep
        rw [ht] at hm
        rw [runScanF_succ_next f st _ hstep]
        have hcls : clsNode st.smap n =
            mapSet st.smap (n.outs.getD 0 0) State.Unknown := by
          simp [clsNode, hk]
        refine (ih _ hng.2 (hcls ▸ hrest) (by
          show scanMeasure rest < f
          have h2 : scanMeasure rest < scanMeasure (n :: rest) := by
            simp only [scanMeasure, countGradOf_cons, List.length_cons]
            rcases Decidable.em (n.kind = Kind.gradOf) with hg | hg <;>
              simp only [hg, if_true, if_false, reduceIte] <;> omega
          omega)).trans ?_
        refine congrArg (fun x => some (ScanRes.ok x)) ?_
        have e1 : (st.done ++ [n]) ++ rest = st.done ++ n :: rest := by simp
        have e2 : clsFold (mapSet st.smap (n.outs.getD 0 0) State.Unknown) rest =
            clsFold st.smap (n :: rest) := by
          show _ = clsFold (clsNode st.smap n) rest
          rw [hcls]
        show PassSt.mk ((st.done ++ [n]) ++ rest) [] st.gouts
            (clsFold (mapSet st.smap (n.outs.getD 0 0) State.Unknown) rest)
            st.fresh = _
        rw [e1, e2]
      | autogradZero =>
        have hstep := scanStep_zero st n rest ht hk
        have hm := scanStep_next_measure st _ hstep
        rw [ht] at hm
        rw [runScanF_succ_next f st _ hstep]
        have hcls : clsNode st.smap n =
            mapSet st.smap (n.outs.getD 0 0) State.Zero := by
          simp [clsNode, hk]
        refine (ih _ hng.2 (hcls ▸ hrest) (by
          show scanMeasure rest < f
          have h2 : scanMeasure rest < scanMeasure (n :: rest) := by
            simp only [scanMeasure, countGradOf_cons, List.length_cons]
            rcases Decidable.em (n.kind = Kind.gradOf) with hg | hg <;>
              simp only [hg, if_true, if_false, reduceIte] <;> omega
          omega)).trans ?_
        refine congrArg (fun x => some (ScanRes.ok x)) ?_
        have e1 : (st.done ++ [n]) ++ rest = st.done ++ n :: rest := by simp
        have e2 : clsFold (mapSet st.smap (n.outs.getD 0 0) State.Zero) rest =
            clsFold st.smap (n :: rest) := by
          show _ = clsFold (clsNode st.smap n) rest
          rw [hcls]
        show PassSt.mk ((st.done ++ [n]) ++ rest) [] st.gouts
            (clsFold (mapSet st.smap (n.outs.getD 0 0) State.Zero) rest)
            st.fresh = _
        rw [e1, e2]
      | atenAdd =>
        have hstep := scanStep_default st n rest ht (Or.inl hk)
        have hm := scanStep_next_measure st _ hstep
        rw [ht] at hm
        rw [runScanF_succ_next f st _ hstep]
        have hcls : clsNode st.smap n =
            n.outs.foldl (fun acc o => mapSet acc o State.Unknown) st.smap := by
          simp [clsNode, hk]
        refine (ih _ hng.2 (hcls ▸ hrest) (by
          show scanMeasure rest < f
          have h2 : scanMeasure rest < scanMeasure (n :: rest) := by
            simp only [scanMeasure, countGradOf_cons, List.length_cons]
            rcases Decidable.em (n.kind = Kind.gradOf) with hg | hg <;>
              simp only [hg, if_true, if_false, reduceIte] <;> omega
          omega)).trans ?_
        refine congrArg (fun x => some (ScanRes.ok x)) ?_
        have e1 : (st.done ++ [n]) ++ rest = st.done ++ n :: rest := by simp
        have e2 : clsFold (n.outs.foldl
              (fun acc o => mapSet acc o State.Unknown) st.smap) rest =
            clsFold st.smap (n :: rest) := by
          show _ = clsFold (clsNode st.smap n) rest
          rw [hcls]
        show PassSt.mk ((st.done ++ [n]) ++ rest) [] st.gouts
            (clsFold (n.outs.foldl
              (fun acc o => mapSet acc o State.Unknown) st.smap) rest)
            st.fresh = _
        rw [e1, e2]
      | other t =>
        have hstep := scanStep_default st n rest ht (Or.inr ⟨t, hk⟩)
        have hm := scanStep_next_measure st _ hstep
        rw [ht] at hm
        rw [runScanF_succ_next f st _ hstep]
        have hcls : clsNode st.smap n =
            n.outs.foldl (fun acc o => mapSet acc o State.Unknown) st.smap := by
          simp [clsNode, hk]
        refine (ih _ hng.2 (hcls ▸ hrest) (by
          show scanMeasure rest < f
          have h2 : scanMeasure rest < scanMeasure (n :: rest) := by
            simp only [scanMeasure, countGradOf_cons, List.length_cons]
            rcases Decidable.em (n.kind = Kind.gradOf) with hg | hg <;>
              simp only [hg, if_true, if_false, reduceIte] <;> omega
          omega)).trans ?_
        refine congrArg (fun x => some (ScanRes.ok x)) ?_
        have e1 : (st.done ++ [n]) ++ rest = st.done ++ n :: rest := by simp
        have e2 : clsFold (n.outs.foldl
              (fun acc o => mapSet acc o State.Unknown) st.smap) rest =
            clsFold st.smap (n :: rest) := by
          show _ = clsFold (clsNode st.smap n) rest
          rw [hcls]
        show PassSt.mk ((st.done ++ [n]) ++ rest) [] st.gouts
            (clsFold (n.outs.foldl
              (fun acc o => mapSet acc o State.Unknown) st.smap) rest)
            st.fresh = _
        rw [e1, e2]

theorem noGradOfB_append (l₁ l₂ : List Node) :
    noGradOfB (l₁ ++ l₂) = (noGradOfB l₁ && noGradOfB l₂) := by
  simp [noGradOfB]

theorem useListN_snoc (l : List Node) (n : Node) :
    useListN (l ++ [n]) = useListN l ++ useNode n := by
  rw [useListN_append]
  simp [useListN]

theorem ins_mem_useNode (x : Nat) (n : Node) (h : x ∈ n.ins) : x ∈ useNode n := by
  cases n with
  | mk i k is os b bo =>
    simp only [Node.ins] at h
    simp only [useNode, List.mem_append]
    exact Or.inl (Or.inl h)

theorem addArity_head (n : Node) (l : List Node)
    (har : addArityOk (n :: l) = true) (hk : n.kind = Kind.autogradAdd) :
    n.ins.length = 2 ∧ n.outs.length = 1 := by
  rw [addArityOk_cons, Bool.and_eq_true] at har
  have h := har.1
  rw [hk] at h
  simp at h
  exact h

theorem addArity_tail (n : Node) (l : List Node)
    (har : addArityOk (n :: l) = true) : addArityOk l = true := by
  rw [addArityOk_cons, Bool.and_eq_true] at har
  exact har.2

/-- First-run lemma: a scan over a region-free, arity-correct,
forward-use-free todo list terminates normally, and the node list it emits is
region-free and stable with respect to the seed classification map. -/
theorem run1_lemma (m0 : SMap) (fuel : Nat) (st : PassSt)
    (hng : noGradOfB st.todo = true)
    (hngd : noGradOfB st.done = true)
    (har : addArityOk st.todo = true)
    (hob : outsBelow st.todo st.fresh)
    (hW : wfChainB (useListN st.done) st.todo = true)
    (hsim : SimCls st.smap (clsFold m0 st.done))
    (hstab : StableFrom m0 st.done)
    (hf : scanMeasure st.todo < fuel) :
    ∃ stF, runScanF fuel st = some (.ok stF) ∧
      StableFrom m0 stF.done ∧ noGradOfB stF.done = true := by
  induction fuel generalizing st with
  | zero => omega
  | succ f ih =>
    cases ht : st.todo with
    | nil =>
      rw [runScanF, scanStep_halt st ht]
      exact ⟨st, rfl, hstab, hngd⟩
    | cons n rest =>
      rw [ht] at hng har hob hW hf
      rw [noGradOfB_cons, Bool.and_eq_true] at hng
      have hmrest : scanMeasure rest < scanMeasure (n :: rest) := by
        simp only [scanMeasure, countGradOf_cons, List.length_cons]
        rcases Decidable.em (n.kind = Kind.gradOf) with hg | hg <;>
          simp only [hg, if_true, if_false, reduceIte] <;> omega
      cases hk : n.kind with
      | gradOf => rw [hk] at hng; simp at hng
      | autogradZero =>
        have hstep := scanStep_zero st n rest ht hk
        rw [runScanF_succ_next f st _ hstep]
        obtain ⟨hWh, hW2⟩ := (wfChainB_cons_iff _ _ _).mp hW
        refine ih _ (by exact hng.2) ?_ ?_ ?_ ?_ ?_ ?_ (by show scanMeasure rest < f; omega)
        · show noGradOfB (st.done ++ [n]) = true
          rw [noGradOfB_append, Bool.and_eq_true, hngd]
          simp [noGradOfB, hk]
        · exact addArity_tail n rest har
        · exact fun m hm => hob m (List.mem_cons_of_mem n hm)
        · show wfChainB (useListN (st.done ++ [n])) rest = true
          rw [useListN_snoc]
          exact hW2
        · show SimCls (mapSet st.smap (n.outs.getD 0 0) State.Zero)
            (clsFold m0 (st.done ++ [n]))
          rw [clsFold_append]
          have : clsNode (clsFold m0 st.done) n =
              mapSet (clsFold m0 st.done) (n.outs.getD 0 0) State.Zero := by
            simp [clsNode, hk]
          show SimCls _ (clsFold (clsFold m0 st.done) [n])
          rw [show clsFold (clsFold m0 st.done) [n] =
            clsNode (clsFold m0 st.done) n from rfl, this]
          exact SimCls_set _ _ _ _ hsim
        · show StableFrom m0 (st.done ++ [n])
          refine (StableFrom_append m0 st.done [n]).mpr ⟨hstab, ?_, trivial⟩
          intro hadd
          rw [hk] at hadd
          cases hadd
      | atenAdd =>
        have hstep := scanStep_default st n rest ht (Or.inl hk)
        rw [runScanF_succ_next f st _ hstep]
        obtain ⟨hWh, hW2⟩ := (wfChainB_cons_iff _ _ _).mp hW
        refine ih _ (by exact hng.2) ?_ ?_ ?_ ?_ ?_ ?_ (by show scanMeasure rest < f; omega)
        · show noGradOfB (st.done ++ [n]) = true
          rw [noGradOfB_append, Bool.and_eq_true, hngd]
          simp [noGradOfB, hk]
        · exact addArity_tail n rest har
        · exact fun m hm => hob m (List.mem_cons_of_mem n hm)
        · show wfChainB (useListN (st.done ++ [n])) rest = true
          rw [useListN_snoc]
          exact hW2
        · show SimCls (n.outs.foldl (fun acc o => mapSet acc o State.Unknown) st.smap)
            (clsFold m0 (st.done ++ [n]))
          rw [clsFold_append]
          show SimCls _ (clsFold (clsFold m0 st.done) [n])
          rw [show clsFold (clsFold m0 st.done) [n] =
            clsNode (clsFold m0 st.done) n from rfl]
          have : clsNode (clsFold m0 st.done) n = n.outs.foldl
              (fun acc o => mapSet acc o State.Unknown) (clsFold m0 st.done) := by
            simp [clsNode, hk]
          rw [this]
          exact SimCls_fold_unknown _ _ _ hsim
        · show StableFrom m0 (st.done ++ [n])
          refine (StableFrom_append m0 st.done [n]).mpr ⟨hstab, ?_, trivial⟩
          intro hadd
          rw [hk] at hadd
          cases hadd
      | other t =>
        have hstep := scanStep_default st n rest ht (Or.inr ⟨t, hk⟩)
        rw [runScanF_succ_next f st _ hstep]
        obtain ⟨hWh, hW2⟩ := (wfChainB_cons_iff _ _ _).mp hW
        refine ih _ (by exact hng.2) ?_ ?_ ?_ ?_ ?_ ?_ (by show scanMeasure rest < f; omega)
        · show noGradOfB (st.done ++ [n]) = true
          rw [noGradOfB_append, Bool.and_eq_true, hngd]
          simp [noGradOfB, hk]
        · exact addArity_tail n rest har
        · exact fun m hm => hob m (List.mem_cons_of_mem n hm)
        · show wfChainB (useListN (st.done ++ [n])) rest = true
          rw [useListN_snoc]
          exact hW2
        · show SimCls (n.outs.foldl (fun acc o => mapSet acc o State.Unknown) st.smap)
            (clsFold m0 (st.done ++ [n]))
          rw [clsFold_append]
          show SimCls _ (clsFold (clsFold m0 st.done) [n])
          rw [show clsFold (clsFold m0 st.done) [n] =
            clsNode (clsFold m0 st.done) n from rfl]
          have : clsNode (clsFold m0 st.done) n = n.outs.foldl
              (fun acc o => mapSet acc o State.Unknown) (clsFold m0 st.done) := by
            simp [clsNode, hk]
          rw [this]
          exact SimCls_fold_unknown _ _ _ hsim
        · show StableFrom m0 (st.done ++ [n])
          refine (StableFrom_append m0 st.done [n]).mpr ⟨hstab, ?_, trivial⟩
          intro hadd
          rw [hk] at hadd
          cases hadd
      | autogradAdd =>
        obtain ⟨hlen2, hlen1⟩ := addArity_head n rest har hk
        obtain ⟨hWh, hW2⟩ := (wfChainB_cons_iff _ _ _).mp hW
        have homem : n.outs.getD 0 0 ∈ n.outs := getD0_mem n.outs (by omega)
        have ho_notin : n.outs.getD 0 0 ∉ useListN st.done := hWh _ homem
        have hamem : n.ins.getD 0 0 ∈ useNode n :=
          ins_mem_useNode _ n (getD0_mem n.ins (by omega))
        have hbmem : n.ins.getD 1 0 ∈ useNode n :=
          ins_mem_useNode _ n (getD1_mem n.ins (by omega))
        have hrout_of_mem : ∀ r, r ∈ useNode n →
            ∀ m ∈ rest, ∀ x ∈ m.outs, x ≠ r := by
          intro r hr m hm x hx he
          exact wfChainB_outs_not_used _ _ hW2 m hm x hx
            (List.mem_append_right _ (he ▸ hr))
        have hdone_fix : ∀ r, replaceUsesList (n.outs.getD 0 0) r st.done = st.done :=
          fun r => replaceUsesList_id _ r st.done ho_notin
        rcases Decidable.em (mapGetD st.smap (n.ins.getD 0 0) = State.Zero) with ha | ha
        · -- Zero + b: drop the add, redirect to b
          have hstep := scanStep_add_zeroA st n rest ht hk ha
          rw [runScanF_succ_next f st _ hstep]
          have hWrelax : wfChainB (useListN st.done) rest = true :=
            wfChainB_relax _ _ (n.ins.getD 1 0) rest
              (fun x hx => Or.inl (List.mem_append_left _ hx))
              (hrout_of_mem _ hbmem) hW2
          refine ih _ ?_ ?_ ?_ ?_ ?_ ?_ ?_ ?_
          · show noGradOfB (replaceUsesList _ _ rest) = true
            rw [noGradOfB_replace]
            exact hng.2
          · show noGradOfB (replaceUsesList _ _ st.done) = true
            rw [hdone_fix]
            exact hngd
          · show addArityOk (replaceUsesList _ _ rest) = true
            rw [addArityOk_replace]
            exact addArity_tail n rest har
          · show outsBelow (replaceUsesList _ _ rest) st.fresh
            exact outsBelow_replace _ _ _ _ (fun m hm => hob m (List.mem_cons_of_mem n hm))
          · show wfChainB (useListN (replaceUsesList _ _ st.done))
              (replaceUsesList _ _ rest) = true
            rw [hdone_fix]
            exact wfChainB_subst _ _ _ rest hWrelax (hrout_of_mem _ hbmem)
          · show SimCls st.smap (clsFold m0 (replaceUsesList _ _ st.done))
            rw [hdone_fix]
            exact hsim
          · show StableFrom m0 (replaceUsesList _ _ st.done)
            rw [hdone_fix]
            exact hstab
          · show scanMeasure (replaceUsesList _ _ rest) < f
            rw [scanMeasure_replaceUsesList]
            omega
        · rcases Decidable.em (mapGetD st.smap (n.ins.getD 1 0) = State.Zero) with hb | hb
          · -- a + Zero: drop the add, redirect to a
            have hstep := scanStep_add_zeroB st n rest ht hk ha hb
            rw [runScanF_succ_next f st _ hstep]
            have hWrelax : wfChainB (useListN st.done) rest = true :=
              wfChainB_relax _ _ (n.ins.getD 0 0) rest
                (fun x hx => Or.inl (List.mem_append_left _ hx))
                (hrout_of_mem _ hamem) hW2
            refine ih _ ?_ ?_ ?_ ?_ ?_ ?_ ?_ ?_
            · show noGradOfB (replaceUsesList _ _ rest) = true
              rw [noGradOfB_replace]
              exact hng.2
            · show noGradOfB (replaceUsesList _ _ st.done) = true
              rw [hdone_fix]
              exact hngd
            · show addArityOk (replaceUsesList _ _ rest) = true
              rw [addArityOk_replace]
              exact addArity_tail n rest har
            · show outsBelow (replaceUsesList _ _ rest) st.fresh
              exact outsBelow_replace _ _ _ _ (fun m hm => hob m (List.mem_cons_of_mem n hm))
            · show wfChainB (useListN (replaceUsesList _ _ st.done))
                (replaceUsesList _ _ rest) = true
              rw [hdone_fix]
              exact wfChainB_subst _ _ _ rest hWrelax (hrout_of_mem _ hamem)
            · show SimCls st.smap (clsFold m0 (replaceUsesList _ _ st.done))
              rw [hdone_fix]
              exact hsim
            · show StableFrom m0 (replaceUsesList _ _ st.done)
              rw [hdone_fix]
              exact hstab
            · show scanMeasure (replaceUsesList _ _ rest) < f
              rw [scanMeasure_replaceUsesList]
              omega
          · rcases Decidable.em (mapGetD st.smap (n.ins.getD 0 0) = State.Nonzero ∧
                mapGetD st.smap (n.ins.getD 1 0) = State.Nonzero) with hnn | hnn
            · -- both Nonzero: emit the plain aten::add
              have hstep := scanStep_add_bothNZ st n rest ht hk hnn.1 hnn.2
              rw [synthesizePlainAdd_def] at hstep
              rw [runScanF_succ_next f st _ hstep]
              have hrout_fr : ∀ m ∈ rest, ∀ x ∈ m.outs, x ≠ st.fresh + 1 := by
                intro m hm x hx
                have := hob m (List.mem_cons_of_mem n hm) x hx
                omega
              have hdone_split : replaceUsesList (n.outs.getD 0 0) (st.fresh + 1)
                  (st.done ++ [Node.mk st.fresh Kind.atenAdd
                    [n.ins.getD 0 0, n.ins.getD 1 0] [st.fresh + 1] [] []]) =
                  st.done ++ [replaceUsesNode (n.outs.getD 0 0) (st.fresh + 1)
                    (Node.mk st.fresh Kind.atenAdd
                      [n.ins.getD 0 0, n.ins.getD 1 0] [st.fresh + 1] [] [])] := by
                rw [replaceUsesList_append, hdone_fix]
                rfl
              have hrepl : replaceUsesNode (n.outs.getD 0 0) (st.fresh + 1)
                  (Node.mk st.fresh Kind.atenAdd
                    [n.ins.getD 0 0, n.ins.getD 1 0] [st.fresh + 1] [] []) =
                  Node.mk st.fresh Kind.atenAdd
                    [substV (n.outs.getD 0 0) (st.fresh + 1) (n.ins.getD 0 0),
                     substV (n.outs.getD 0 0) (st.fresh + 1) (n.ins.getD 1 0)]
                    [st.fresh + 1] [] [] := rfl
              rw [hrepl] at hdone_split
              refine ih _ ?_ ?_ ?_ ?_ ?_ ?_ ?_ ?_
              · show noGradOfB (replaceUsesList _ _ rest) = true
                rw [noGradOfB_replace]
                exact hng.2
              · show noGradOfB (replaceUsesList _ _ (st.done ++ _)) = true
                rw [hdone_split, noGradOfB_append, Bool.and_eq_true, hngd]
                exact ⟨rfl, by simp [noGradOfB, Node.kind]⟩
              · show addArityOk (replaceUsesList _ _ rest) = true
                rw [addArityOk_replace]
                exact addArity_tail n rest har
              · show outsBelow (replaceUsesList _ _ rest) (st.fresh + 2)
                exact outsBelow_mono _ _ _
                  (outsBelow_replace _ _ _ _
                    (fun m hm => hob m (List.mem_cons_of_mem n hm)))
                  (by omega)
              · show wfChainB (useListN (replaceUsesList _ _ (st.done ++ _)))
                  (replaceUsesList _ _ rest) = true
                rw [hdone_split, useListN_snoc]
                have hsub1 := wfChainB_subst (useListN st.done ++ useNode n)
                  (n.outs.getD 0 0) (st.fresh + 1) rest hW2 hrout_fr
                refine wfChainB_relax (useListN st.done ++ useNode n) _
                  (st.fresh + 1) _ ?_ ?_ hsub1
                · intro x hx
                  rcases List.mem_append.mp hx with h | h
                  · exact Or.inl (List.mem_append_left _ h)
                  · simp only [useNode, useListN, List.append_nil, List.nil_append,
                      List.mem_cons, List.not_mem_nil, or_false] at h
                    rcases h with h | h
                    · by_cases hao : n.ins.getD 0 0 = n.outs.getD 0 0
                      · right
                        rw [h, substV, if_pos hao]
                      · left
                        rw [h, substV, if_neg hao]
                        exact List.mem_append_right _ hamem
                    · by_cases hbo : n.ins.getD 1 0 = n.outs.getD 0 0
                      · right
                        rw [h, substV, if_pos hbo]
                      · left
                        rw [h, substV, if_neg hbo]
                        exact List.mem_append_right _ hbmem
                · intro m hm x hx
                  rw [replaceUsesList_eq_map] at hm
                  obtain ⟨m0', hm0, he⟩ := List.mem_map.mp hm
                  rw [← he, outs_replace] at hx
                  exact hrout_fr m0' hm0 x hx
              · show SimCls (mapSet st.smap (st.fresh + 1) State.Nonzero)
                  (clsFold m0 (replaceUsesList _ _ (st.done ++ _)))
                rw [hdone_split, clsFold_append]
                exact SimCls_set_nzu _ _ _ hsim
              · show StableFrom m0 (replaceUsesList _ _ (st.done ++ _))
                rw [hdone_split]
                refine (StableFrom_append m0 st.done _).mpr ⟨hstab, ?_, trivial⟩
                intro hadd
                simp [Node.kind] at hadd
              · show scanMeasure (replaceUsesList _ _ rest) < f
                rw [scanMeasure_replaceUsesList]
                omega
            · -- conservative leave
              have hstep := scanStep_add_leave st n rest ht hk ha hb hnn
              rw [runScanF_succ_next f st _ hstep]
              refine ih _ (by exact hng.2) ?_ ?_ ?_ ?_ ?_ ?_
                (by show scanMeasure rest < f; omega)
              · show noGradOfB (st.done ++ [n]) = true
                rw [noGradOfB_append, Bool.and_eq_true, hngd]
                simp [noGradOfB, hk]
              · exact addArity_tail n rest har
              · exact fun m hm => hob m (List.mem_cons_of_mem n hm)
              · show wfChainB (useListN (st.done ++ [n])) rest = true
                rw [useListN_snoc]
                exact hW2
              · show SimCls (mapSet st.smap (n.outs.getD 0 0) State.Unknown)
                  (clsFold m0 (st.done ++ [n]))
                rw [clsFold_append]
                show SimCls _ (clsFold (clsFold m0 st.done) [n])
                rw [show clsFold (clsFold m0 st.done) [n] =
                  clsNode (clsFold m0 st.done) n from rfl]
                have : clsNode (clsFold m0 st.done) n =
                    mapSet (clsFold m0 st.done) (n.outs.getD 0 0) State.Unknown := by
                  simp [clsNode, hk]
                rw [this]
                exact SimCls_set _ _ _ _ hsim
              · show StableFrom m0 (st.done ++ [n])
                refine (StableFrom_append m0 st.done [n]).mpr ⟨hstab, ?_, trivial⟩
                intro _
                have hcls := hsim
                refine ⟨?_, ?_, ?_⟩
                · intro hz
                  exact ha ((hcls (n.ins.getD 0 0)).1 hz)
                · intro hz
                  exact hb ((hcls (n.ins.getD 1 0)).1 hz)
                · intro ⟨hna, hnb⟩
                  have hu : mapGetD st.smap (n.ins.getD 0 0) = State.Unknown ∨
                      mapGetD st.smap (n.ins.getD 1 0) = State.Unknown := by
                    cases h0 : mapGetD st.smap (n.ins.getD 0 0) with
                    | Zero => exact absurd h0 ha
                    | Unknown => exact Or.inl rfl
                    | Nonzero =>
                      cases h1 : mapGetD st.smap (n.ins.getD 1 0) with
                      | Zero => exact absurd h1 hb
                      | Unknown => exact Or.inr rfl
                      | Nonzero => exact absurd ⟨h0, h1⟩ hnn
                  rcases hu with hu | hu
                  · have := (hcls (n.ins.getD 0 0)).2 hu
                    rw [this] at hna
                    cases hna
                  · have := (hcls (n.ins.getD 1 0)).2 hu
                    rw [this] at hnb
                    cases hnb

/-!
## Claim C9 — idempotence
-/

/-- C9 counterexample: the pass is not idempotent. On `g9` the first run
splices the region's body — a guarded addition with a `Zero` operand — past
the cursor without re-visiting it, so the second run still finds work: it
deletes that addition and rewires the graph output. -/
theorem pass_not_idempotent :
    specializeAutogradZero g9 = some g9a ∧
    specializeAutogradZero g9a = some g9b ∧
    g9b ≠ g9a := by
  refine ⟨by decide, by decide, by decide⟩

/-- C9 amended: on every graph with no top-level conditional region (the only
source of nodes the scan skips), binary guarded additions, and no value used
before the node that defines it, the pass succeeds and re-running it on the
output changes nothing. -/
theorem pass_idempotent_region_free (g : Graph)
    (hng : noGradOfB g.nodes = true)
    (har : addArityOk g.nodes = true)
    (hW : wfChainB [] g.nodes = true) :
    ∃ g', specializeAutogradZero g = some g' ∧
      specializeAutogradZero g' = some g' := by
  obtain ⟨stF, hrun, hstab, hngF⟩ := run1_lemma (initSMap g.inputs)
    (scanMeasure g.nodes + 1) (initSt g)
    hng rfl har (outsBelow_init g) hW (SimCls_refl _) trivial
    (by show scanMeasure g.nodes < scanMeasure g.nodes + 1; omega)
  have hg1 : specializeAutogradZero g =
      some { inputs := g.inputs, nodes := stF.done, outputs := stF.gouts } := by
    rw [specializeAutogradZero, hrun]
  refine ⟨_, hg1, ?_⟩
  have hrun2 := scan_noop (scanMeasure stF.done + 1)
    (initSt { inputs := g.inputs, nodes := stF.done, outputs := stF.gouts })
    hngF hstab
    (by show scanMeasure stF.done < scanMeasure stF.done + 1; omega)
  rw [specializeAutogradZero, hrun2]
  simp [initSt]

/-- Witness for the amended C9 on the region-free graph `gC8`. -/
theorem pass_idempotent_region_free_witness :
    ∃ g', specializeAutogradZero gC8 = some g' ∧
      specializeAutogradZero g' = some g' :=
  pass_idempotent_region_free gC8 (by decide) (by decide) (by decide)

/-- C1 counterexample: on `g1c` the dispatch reads value 13 — the output of
a node spliced out of the region's nested block, which the scan does not
revisit — when it visits the guarded addition `add(13, 1)`. At that very
state (`stMid1c`, one scan step in, cursor on the addition) the map holds no
entry for 13 (no rule ever assigned it; `mapSet` only adds entries), yet the
read (`mapGetD`, the model of `state[v]`) returns `Nonzero`, not `Unknown`;
accordingly the addition takes the both-`Nonzero` branch and is rewritten
into the plain add node 22, visible in the final state. This refutes both
halves of the claim: the read was not preceded by an assignment, and the
unclassified value did not read as `Unknown`. -/
theorem unclassified_reads_nonzero_counterexample :
    iterScan 1 (initSt g1c) = some stMid1c ∧
    stMid1c.todo = [Node.mk 20 Kind.autogradAdd [13, 1] [21] [] []] ∧
    mapFind stMid1c.smap 13 = none ∧
    mapGetD stMid1c.smap 13 = State.Nonzero ∧
    mapGetD stMid1c.smap 13 ≠ State.Unknown ∧
    runScanF (scanMeasure g1c.nodes + 1) (initSt g1c) = some (.ok stF1c) ∧
    mapFind stF1c.smap 13 = none ∧
    mapGetD stF1c.smap 13 = State.Nonzero ∧
    skel stF1c.done = [(12, Kind.other 0, [13]), (22, Kind.atenAdd, [23])] := by
  refine ⟨by decide, by decide, by decide, by decide, by decide, by decide,
    by decide, by decide, by decide⟩

/-- C1 amended: a classification-map read (`state[v]`, modelled by
`mapGetD`) returns the explicitly assigned classification when one exists,
and otherwise returns `Nonzero` — the value-initialized default, the
lattice's first enumerator — never `Unknown`. Consequently an `Unknown` read
always traces back to an explicit assignment, while a value never classified
by any rule (such as a spliced node's output) reads as `Nonzero`. -/
theorem unclassified_reads_nonzero_amended :
    (∀ (m : SMap) (v : Nat) (s : State), mapFind m v = some s → mapGetD m v = s) ∧
    (∀ (m : SMap) (v : Nat), mapFind m v = none → mapGetD m v = State.Nonzero) ∧
    (∀ (m : SMap) (v : Nat), mapGetD m v = State.Unknown →
      mapFind m v = some State.Unknown) := by
  refine ⟨?_, ?_, ?_⟩
  · intro m v s h
    simp [mapGetD, h]
  · intro m v h
    simp [mapGetD, h]
  · intro m v h
    cases hf : mapFind m v with
    | none => rw [mapGetD, hf] at h; cases h
    | some s => rw [mapGetD, hf] at h; simp at h; rw [h]

/-- Witness for the amended C1 at concrete maps. -/
theorem unclassified_reads_nonzero_amended_witness :
    mapGetD [(5, State.Zero)] 5 = State.Zero ∧
    mapGetD [(5, State.Zero)] 7 = State.Nonzero := by
  exact ⟨unclassified_reads_nonzero_amended.1 [(5, State.Zero)] 5 State.Zero
      (by decide),
    unclassified_reads_nonzero_amended.2.1 [(5, State.Zero)] 7 (by decide)⟩

end AGZ
